import Mathlib

/-!
Verification of the `ConstObject` repository (src/main.cpp): a small-object
optimized handle `Small<T>` that stores small trivially-copyable payloads (or
`std::shared_ptr` payloads) inline, and stores every other payload in a
per-thread, mutex-guarded, reference-counted pool.

The C++ source is shallowly embedded as follows.

* The compile-time trait `inlined_object<T>` inspects three properties of a
  payload type: `std::is_trivially_copyable_v<T>`, `sizeof(T)`, and whether the
  type is an instantiation of `std::shared_ptr`.  A payload type is embedded as
  a `TypeDesc` record of exactly those three properties.

* The runtime protocol (construction, copy, destruction of pooled handles,
  thread-local pool lookup, thread exit) is embedded as a state machine.  One
  payload type is fixed; payload values are `Nat`.  Heap addresses
  (`AtomicCounter<T> *`), handle identities and pool identities are `Nat` ids.
  Each C++ operation is a single atomic step of the machine: the per-pool
  `std::mutex` serializes pool mutations and the use-counter is a single atomic
  read-modify-write, so an interleaving of whole operations is exactly the set
  of behaviours the synchronization in the source permits.

* `boost::object_pool` itself is not part of the repository's sources; its
  free-list behaviour (reuse a retired slot if available, otherwise take a
  fresh block from the backing allocator) is modelled from the specification of
  the per-thread pool.
-/

namespace ConstObject

/-- Compile-time description of a C++ payload type `T`: the three properties
that `inlined_object<T>` (src/main.cpp:81-94) inspects, namely
`std::is_trivially_copyable_v<T>`, `sizeof(T)`, and whether `T` is an
instantiation of `std::shared_ptr`. -/
structure TypeDesc where
  trivially_copyable : Bool
  size : Nat
  isSharedPtr : Bool
deriving DecidableEq, Repr

/-- Source constant `constexpr size_t MAX_SMALL_SIZE = 64;` (src/main.cpp:84). -/
def MAX_SMALL_SIZE : Nat := 64

/-- Trait `inlined_object_v<T>` (src/main.cpp:81-94): the primary template is
`std::false_type`; the partial specialization for
`std::is_trivially_copyable_v<T> && sizeof(T) <= MAX_SMALL_SIZE` is
`std::true_type`; the partial specialization for `std::shared_ptr<T>` is
`std::true_type` (with no size condition). -/
def inlined_object_v (T : TypeDesc) : Bool :=
  T.isSharedPtr || (T.trivially_copyable && decide (T.size ≤ MAX_SMALL_SIZE))

/-- Flag `Small<T>::inlined`: `Small<T> = SmallImpl<T, void>` (src/main.cpp:115-116)
resolves to the inline partial specialization
`SmallImpl<T, std::enable_if_t<inlined_object_v<T>>>` (src/main.cpp:96-113,
whose `inlined` flag is `true`) exactly when `inlined_object_v<T>` holds, and
otherwise to the primary (pooled) template (src/main.cpp:53-79, whose `inlined`
flag is `false`). -/
def Small_inlined (T : TypeDesc) : Bool :=
  if inlined_object_v T then true else false

/-! ## The pooled-representation state machine -/

/-- Cell type `AtomicCounter<T>` (src/main.cpp:7-14): the payload together with its
atomic use count.  The constructor initializes `uses` to `1`. -/
structure Cell where
  data : Nat
  uses : Nat
deriving DecidableEq, Repr

/-- The pooled `SmallImpl<T, class>` handle (src/main.cpp:53-79): a
`std::shared_ptr<ParallelPool<T>> owner_` and a raw `AtomicCounter<T> *counter_`,
both modelled as ids. -/
structure PooledHandle where
  owner_ : Nat
  counter_ : Nat
deriving DecidableEq, Repr

/-- A `ParallelPool<T>` object (src/main.cpp:16-45) as seen through its
`std::shared_ptr`: `refs` is the `shared_ptr` use count of the pool object and
`freeList` is the list of retired cell slots held by the underlying
`boost::object_pool` (modelled from the spec: the pool reuses a retired slot
when one is available). -/
structure Pool where
  refs : Nat
  freeList : List Nat
deriving DecidableEq, Repr

/-- Global state of the pooled-representation machine, for one payload type:
live cells (by id), the pool that allocated each cell id (a history variable:
in C++ this is determined by which `boost::object_pool` the address came from),
live pool objects (by id), live pooled handles (by id), and the per-thread
`thread_local` pool cache of `getPool` (src/main.cpp:47-51). -/
structure State where
  cells : Nat → Option Cell
  allocOwner : Nat → Option Nat
  pools : Nat → Option Pool
  handles : List (Nat × PooledHandle)
  tlPools : List (Nat × Nat)
  nextCell : Nat
  nextHandle : Nat
  nextPool : Nat

/-- Association-list lookup by key. -/
def alookup {α β : Type} [DecidableEq α] : List (α × β) → α → Option β
  | [], _ => none
  | (k, v) :: t, k' => if k = k' then some v else alookup t k'

/-- Remove every entry with the given key. -/
def eraseKey {α β : Type} [DecidableEq α] (l : List (α × β)) (k : α) : List (α × β) :=
  l.filter (fun q => decide (q.1 ≠ k))

/-- Pointwise update of a map. -/
def fupd {β : Type} (f : Nat → β) (k : Nat) (v : β) : Nat → β :=
  fun q => if q = k then v else f q

/-- Function `getPool<T>()` (src/main.cpp:47-51): return the calling thread's
`thread_local std::shared_ptr<ParallelPool<T>>`, creating the pool (with the
`shared_ptr` as its single owner, `refs = 1`) on the thread's first call. -/
def getPool (s : State) (tid : Nat) : Nat × State :=
  match alookup s.tlPools tid with
  | some p => (p, s)
  | none =>
    (s.nextPool,
     { s with
        pools := fupd s.pools s.nextPool (some ⟨1, []⟩),
        tlPools := (tid, s.nextPool) :: s.tlPools,
        nextPool := s.nextPool + 1 })

/-- Copying a `std::shared_ptr<ParallelPool<T>>`: one more owner of pool `p`. -/
def bumpPoolRefs (s : State) (p : Nat) : State :=
  match s.pools p with
  | some pl => { s with pools := fupd s.pools p (some { pl with refs := pl.refs + 1 }) }
  | none => s

/-- Destroying a `std::shared_ptr<ParallelPool<T>>`: one fewer owner of pool
`p`; when the last owner goes away the pool object itself is destroyed
(`boost::object_pool`'s destructor then frees all of its storage). -/
def dropPoolRef (s : State) (p : Nat) : State :=
  match s.pools p with
  | some pl =>
    if pl.refs - 1 = 0 then { s with pools := fupd s.pools p none }
    else { s with pools := fupd s.pools p (some { pl with refs := pl.refs - 1 }) }
  | none => s

/-- Method `ParallelPool<T>::construct` (src/main.cpp:40-44): under the pool's mutex,
`boost::object_pool::construct` obtains a slot (modelled from the spec: a
retired slot from the free list if available, otherwise a fresh block from the
backing allocator) and in-place constructs `AtomicCounter<T>` there, so the new
cell starts with `uses = 1` (src/main.cpp:13).  Returns the cell's address.
The whole critical section is one atomic step.  (Calling `construct` on a
destroyed pool is impossible in the source, since the caller holds a
`shared_ptr` to the pool; the `none` branch is dead code under `Inv`.) -/
def poolConstruct (s : State) (p : Nat) (v : Nat) : Nat × State :=
  match s.pools p with
  | none => (0, s)
  | some pl =>
    match pl.freeList with
    | c :: rest =>
      (c, { s with
              cells := fupd s.cells c (some ⟨v, 1⟩),
              allocOwner := fupd s.allocOwner c (some p),
              pools := fupd s.pools p (some { pl with freeList := rest }) })
    | [] =>
      (s.nextCell,
       { s with
          cells := fupd s.cells s.nextCell (some ⟨v, 1⟩),
          allocOwner := fupd s.allocOwner s.nextCell (some p),
          nextCell := s.nextCell + 1 })

/-- Method `ParallelPool<T>::destroy(cell)` (src/main.cpp:28-32): under the pool's
mutex, `boost::object_pool::destroy` runs the cell's destructor and returns its
storage to the pool's free list.  The whole critical section is one atomic
step. -/
def poolDestroy (s : State) (p c : Nat) : State :=
  match s.pools p with
  | some pl =>
    { s with
        cells := fupd s.cells c none,
        pools := fupd s.pools p (some { pl with freeList := c :: pl.freeList }) }
  | none => s

/-- The operations any number of threads may perform on pooled handles:
construct a handle from a payload value on thread `tid`, copy-construct from a
live handle, destroy a live handle on thread `tid`, or end thread `tid`
(running the destructor of its `thread_local` pool `shared_ptr`). -/
inductive Action where
  | construct (tid v : Nat)
  | copy (hid : Nat)
  | destroy (tid hid : Nat)
  | threadExit (tid : Nat)
deriving DecidableEq, Repr

/-- One atomic step of the machine.

* `construct tid v` — the pooled `SmallImpl` constructor (src/main.cpp:61-62):
  `owner_(getPool<T>())` copies the thread-local `shared_ptr`, then
  `counter_(owner_->construct(v))` allocates the cell; the new handle gets a
  fresh id.
* `copy hid` — the copy constructor (src/main.cpp:64):
  `owner_(item.owner_)` copies the pool reference, and
  `counter_((++item.counter_->uses, item.counter_))` atomically increments the
  source cell's use count and stores the same cell pointer.
* `destroy tid hid` — the destructor (src/main.cpp:66-70):
  `if (!--counter_->uses) owner_->destroy(counter_);` — the atomic
  pre-decrement yields zero exactly when the counter was `1` (a `size_t`
  decrement of `0` wraps around and is nonzero), and then the cell is released
  to the owning pool; finally the member `owner_` `shared_ptr` is destroyed.
  Note `tid` is not consulted anywhere.
* `threadExit tid` — thread exit destroys the thread's `thread_local`
  `shared_ptr` (src/main.cpp:49).

Steps whose preconditions fail (copying or destroying a handle that does not
exist, exiting a thread with no pool) leave the state unchanged; C++ scoping
makes such calls impossible. -/
def step (s : State) (a : Action) : State :=
  match a with
  | .construct tid v =>
    let r := getPool s tid
    let s1 := bumpPoolRefs r.2 r.1
    let r2 := poolConstruct s1 r.1 v
    { r2.2 with
        handles := (r2.2.nextHandle, ⟨r.1, r2.1⟩) :: r2.2.handles,
        nextHandle := r2.2.nextHandle + 1 }
  | .copy hid =>
    match alookup s.handles hid with
    | none => s
    | some h =>
      let s1 := bumpPoolRefs s h.owner_
      let s2 := { s1 with
        cells := fun q =>
          if q = h.counter_ then (s1.cells q).map (fun (cl : Cell) => { cl with uses := cl.uses + 1 })
          else s1.cells q }
      { s2 with
          handles := (s2.nextHandle, h) :: s2.handles,
          nextHandle := s2.nextHandle + 1 }
  | .destroy _tid hid =>
    match alookup s.handles hid with
    | none => s
    | some h =>
      match s.cells h.counter_ with
      | none => s
      | some cl =>
        let s1 :=
          if cl.uses = 1 then poolDestroy s h.owner_ h.counter_
          else { s with cells := fupd s.cells h.counter_ (some { cl with uses := cl.uses - 1 }) }
        dropPoolRef { s1 with handles := eraseKey s1.handles hid } h.owner_
  | .threadExit tid =>
    match alookup s.tlPools tid with
    | none => s
    | some p => dropPoolRef { s with tlPools := eraseKey s.tlPools tid } p

/-- Read access `data()` of the pooled handle (src/main.cpp:72-74):
`return counter_->data;` — a read-only reference into the shared cell,
modelled as the value read through the handle's cell pointer. -/
def readData (s : State) (hid : Nat) : Option Nat :=
  match alookup s.handles hid with
  | none => none
  | some h => (s.cells h.counter_).map Cell.data

/-- The empty initial state: no cells, no pools, no handles. -/
def init : State :=
  { cells := fun _ => none, allocOwner := fun _ => none, pools := fun _ => none,
    handles := [], tlPools := [], nextCell := 0, nextHandle := 0, nextPool := 0 }

/-- Run a sequence of operations (one arbitrary interleaving of the threads'
atomic steps). -/
def run (s : State) (as : List Action) : State := as.foldl step s

/-- A state is reachable when some interleaving of operations produces it from
the empty state. -/
def Reachable (s : State) : Prop := ∃ as : List Action, run init as = s

/-- Number of live handles whose `counter_` points at cell `c`. -/
def refCount (s : State) (c : Nat) : Nat :=
  s.handles.countP (fun q => decide (q.2.counter_ = c))

/-- Ids of the live handles whose `counter_` points at cell `c`. -/
def refIds (s : State) (c : Nat) : List Nat :=
  (s.handles.filter (fun q => decide (q.2.counter_ = c))).map Prod.fst

/-- Number of live handles whose `owner_` is pool `p`. -/
def ownerCount (s : State) (p : Nat) : Nat :=
  s.handles.countP (fun q => decide (q.2.owner_ = p))

/-- Number of threads whose `thread_local` cache holds pool `p`. -/
def tlCount (s : State) (p : Nat) : Nat :=
  s.tlPools.countP (fun q => decide (q.2 = p))

/-- The `shared_ptr` use count of pool `p` (`0` when the pool is destroyed). -/
def poolRefs (s : State) (p : Nat) : Nat :=
  match s.pools p with
  | some pl => pl.refs
  | none => 0

/-- The free list of pool `p` (`[]` when the pool is destroyed). -/
def poolFree (s : State) (p : Nat) : List Nat :=
  match s.pools p with
  | some pl => pl.freeList
  | none => []

/-- Whether performing `a` from state `s` releases cell `c` to its pool, i.e.
the destructor's decrement `!--counter_->uses` observes the transition to
zero (src/main.cpp:67). -/
def releasesC (s : State) (a : Action) (c : Nat) : Bool :=
  match a with
  | .destroy _ hid =>
    match alookup s.handles hid with
    | some h =>
      decide (h.counter_ = c) &&
        (match s.cells h.counter_ with
         | some cl => decide (cl.uses = 1)
         | none => false)
    | none => false
  | _ => false

/-- How many steps of the sequence `as`, run from `s`, release cell `c`. -/
def releaseCount : State → List Action → Nat → Nat
  | _, [], _ => 0
  | s, a :: as, c => (if releasesC s a c then 1 else 0) + releaseCount (step s a) as c

/-- The machine invariant, established at `init` and preserved by `step`. -/
structure Inv (s : State) : Prop where
  hkeys : (s.handles.map Prod.fst).Nodup
  hkeyLt : ∀ k h, (k, h) ∈ s.handles → k < s.nextHandle
  tlkeys : (s.tlPools.map Prod.fst).Nodup
  cellLt : ∀ c, s.cells c ≠ none → c < s.nextCell
  ownLt : ∀ c, s.allocOwner c ≠ none → c < s.nextCell
  poolLt : ∀ p, s.pools p ≠ none → p < s.nextPool
  hcell : ∀ k h, (k, h) ∈ s.handles → s.cells h.counter_ ≠ none
  howner : ∀ k h, (k, h) ∈ s.handles → s.allocOwner h.counter_ = some h.owner_
  hpool : ∀ k h, (k, h) ∈ s.handles → s.pools h.owner_ ≠ none
  count : ∀ c cl, s.cells c = some cl → cl.uses = refCount s c
  cell_pos : ∀ c cl, s.cells c = some cl → 0 < cl.uses
  free_own : ∀ p pl c, s.pools p = some pl → c ∈ pl.freeList →
    s.allocOwner c = some p ∧ s.cells c = none ∧ c < s.nextCell
  free_nd : ∀ p pl, s.pools p = some pl → pl.freeList.Nodup
  refs_eq : ∀ p, poolRefs s p = ownerCount s p + tlCount s p
  refs_pos : ∀ p pl, s.pools p = some pl → 0 < pl.refs

/-- Intermediate invariant used while a step is in flight: all fields of `Inv`
hold except that pool `p` carries one extra `shared_ptr` reference that is
about to be dropped (or has just been taken on behalf of a handle that is
about to be pushed). -/
structure PreInv (s : State) (p : Nat) : Prop where
  hkeys : (s.handles.map Prod.fst).Nodup
  hkeyLt : ∀ k h, (k, h) ∈ s.handles → k < s.nextHandle
  tlkeys : (s.tlPools.map Prod.fst).Nodup
  cellLt : ∀ c, s.cells c ≠ none → c < s.nextCell
  ownLt : ∀ c, s.allocOwner c ≠ none → c < s.nextCell
  poolLt : ∀ q, s.pools q ≠ none → q < s.nextPool
  hcell : ∀ k h, (k, h) ∈ s.handles → s.cells h.counter_ ≠ none
  howner : ∀ k h, (k, h) ∈ s.handles → s.allocOwner h.counter_ = some h.owner_
  hpool : ∀ k h, (k, h) ∈ s.handles → s.pools h.owner_ ≠ none
  count : ∀ c cl, s.cells c = some cl → cl.uses = refCount s c
  cell_pos : ∀ c cl, s.cells c = some cl → 0 < cl.uses
  free_own : ∀ q pl c, s.pools q = some pl → c ∈ pl.freeList →
    s.allocOwner c = some q ∧ s.cells c = none ∧ c < s.nextCell
  free_nd : ∀ q pl, s.pools q = some pl → pl.freeList.Nodup
  refs_eq : ∀ q, poolRefs s q = ownerCount s q + tlCount s q + (if q = p then 1 else 0)
  refs_pos : ∀ q pl, s.pools q = some pl → 0 < pl.refs
  pool_live : s.pools p ≠ none

/-! ## Thread-local pool retrieval across payload types (for `getPool<T>`) -/

/-- The process-wide family of `thread_local std::shared_ptr<ParallelPool<T>>`
variables of `getPool<T>` (src/main.cpp:47-51), across payload types: a table
keyed by (thread id, payload type id) holding the pool instance's id, plus a
supply of fresh pool ids. -/
structure PoolTable where
  table : List ((Nat × Nat) × Nat)
  next : Nat
deriving DecidableEq, Repr

/-- Call `getPool<T>()` on a given thread: the `thread_local` initializer
`std::make_shared<ParallelPool<T>>()` runs on the thread's first call for this
`T` (creating a fresh pool instance) and every later call returns the cached
instance. -/
def getPoolT (pt : PoolTable) (tid ty : Nat) : Nat × PoolTable :=
  match alookup pt.table (tid, ty) with
  | some p => (p, pt)
  | none => (pt.next, ⟨((tid, ty), pt.next) :: pt.table, pt.next + 1⟩)

/-- No thread has called `getPool` yet. -/
def initPT : PoolTable := ⟨[], 0⟩

/-- Perform a sequence of `getPool` calls, given as (thread id, type id). -/
def runPT (pt : PoolTable) (calls : List (Nat × Nat)) : PoolTable :=
  calls.foldl (fun acc c => (getPoolT acc c.1 c.2).2) pt

/-- A pool table produced by some sequence of `getPool` calls. -/
def ReachablePT (pt : PoolTable) : Prop := ∃ calls, runPT initPT calls = pt

/-! ## Allocation failure (for `ParallelPool::construct`) -/

/-- Allocation failure of the backing allocator. -/
inductive AllocError where
  | badAlloc
deriving DecidableEq, Repr

/-- Modelled from the spec: the backing block allocator behind
`boost::object_pool` is not part of src/; per spec §4.2/§7 its failure
"propagates as a fatal allocation error" with no retry policy.  The allocator's
outcome is an input: a slot when `avail`, exhaustion otherwise. -/
def backingAlloc (avail : Bool) (slot : Nat) : Except AllocError Nat :=
  if avail then Except.ok slot else Except.error AllocError.badAlloc

/-- Method `ParallelPool<T>::construct` (src/main.cpp:40-44) with a fallible backing
allocation: it forwards to the pool under the mutex and adds no handling of
allocation failure, so a failure propagates unchanged; on success the new cell
starts with `uses = 1`. -/
def constructE (avail : Bool) (slot v : Nat) : Except AllocError (Nat × Cell) :=
  (backingAlloc avail slot).map (fun c => (c, ⟨v, 1⟩))

/-- The pooled `SmallImpl` constructor (src/main.cpp:61-62) with a fallible
allocation: `counter_(owner_->construct(...))` — a failure inside `construct`
propagates out of the constructor, so no handle is produced and the
construction expression does not complete. -/
def mkPooledE (avail : Bool) (pool slot v : Nat) : Except AllocError PooledHandle :=
  (constructE avail slot v).map (fun pr => ⟨pool, pr.1⟩)

/-! ## Inline representation reads (for the inline `SmallImpl`) -/

/-- A heap of payload objects (object id ↦ value) instrumented to observe C++
copy construction: `copies` counts payload copy-constructor invocations and
`nextId` supplies fresh object identities.  (The repository's own test payload
`CopyCounter`, src/main.cpp:129-135, instruments copies the same way.) -/
structure Heap where
  objs : List (Nat × Nat)
  copies : Nat
  nextId : Nat
deriving DecidableEq, Repr

/-- The payload's copy constructor: produce a fresh object with the same
value, recording one copy.  (Copying a nonexistent object is impossible in
C++; that branch is dead code.) -/
def copyPayload (hp : Heap) (oid : Nat) : Nat × Heap :=
  match alookup hp.objs oid with
  | some v => (hp.nextId, ⟨(hp.nextId, v) :: hp.objs, hp.copies + 1, hp.nextId + 1⟩)
  | none => (oid, hp)

/-- The inline `SmallImpl` specialization (src/main.cpp:96-113): it stores the
payload by value (`T data_`), here as the id of the stored payload object. -/
structure SmallInl where
  data_ : Nat
deriving DecidableEq, Repr

/-- Inline `data()` (src/main.cpp:110-112): `T data() const noexcept { return
data_; }` — the return type is `T` (by value), so returning copy-constructs
the result from `data_`. -/
def SmallInl.data (sm : SmallInl) (hp : Heap) : Nat × Heap :=
  copyPayload hp sm.data_

/-- Inline `explicit operator T()` (src/main.cpp:106-108): `return data_;`,
also returning `T` by value. -/
def SmallInl.operatorT (sm : SmallInl) (hp : Heap) : Nat × Heap :=
  copyPayload hp sm.data_

/-- The use counts of `std::shared_ptr` control blocks (control block id ↦
`use_count`), for reading a `Small<std::shared_ptr<U>>`. -/
structure SPWorld where
  counts : List (Nat × Nat)
deriving DecidableEq, Repr

/-- A `std::shared_ptr` value: the control block (and referent) it points at. -/
structure SharedPtrV where
  ctrl : Nat
deriving DecidableEq, Repr

/-- The `std::shared_ptr` copy constructor: the copy shares the control block
and the referent, and the control block's `use_count` is incremented. -/
def spCopy (w : SPWorld) (p : SharedPtrV) : SharedPtrV × SPWorld :=
  (⟨p.ctrl⟩, ⟨w.counts.map (fun q => if q.1 = p.ctrl then (q.1, q.2 + 1) else q)⟩)

/-- The inline `SmallImpl` over a `std::shared_ptr` payload (`shared_ptr` is
always inline-eligible, src/main.cpp:90-91). -/
structure SmallInlSP where
  data_ : SharedPtrV
deriving DecidableEq, Repr

/-- Inline `data()` at payload type `std::shared_ptr<U>`: returning by value
copy-constructs the stored `shared_ptr`. -/
def SmallInlSP.data (sm : SmallInlSP) (w : SPWorld) : SharedPtrV × SPWorld :=
  spCopy w sm.data_

/-! ## Basic lemmas: maps, association lists, key removal -/

@[simp]
theorem fupd_self {β : Type} (f : Nat → β) (k : Nat) (v : β) : fupd f k v k = v := by
  simp [fupd]

theorem fupd_ne {β : Type} (f : Nat → β) {k q : Nat} (v : β) (h : q ≠ k) :
    fupd f k v q = f q := by
  simp [fupd, h]

theorem alookup_mem {α β : Type} [DecidableEq α] {l : List (α × β)} {k : α} {v : β}
    (h : alookup l k = some v) : (k, v) ∈ l := by
  induction l with
  | nil => simp [alookup] at h
  | cons a t ih =>
    obtain ⟨ka, va⟩ := a
    by_cases hk : ka = k
    · subst hk
      simp [alookup] at h
      simp [h]
    · simp [alookup, hk] at h
      exact List.mem_cons_of_mem _ (ih h)

theorem alookup_none_of_not_mem {α β : Type} [DecidableEq α] {l : List (α × β)} {k : α}
    (h : k ∉ l.map Prod.fst) : alookup l k = none := by
  induction l with
  | nil => rfl
  | cons a t ih =>
    obtain ⟨ka, va⟩ := a
    have h1 : ka ≠ k := by
      intro hh
      exact h (by simp [hh])
    have h2 : k ∉ t.map Prod.fst := by
      intro hh
      exact h (by simp [hh])
    simp [alookup, h1, ih h2]

theorem mem_alookup {α β : Type} [DecidableEq α] {l : List (α × β)} {k : α} {v : β}
    (nd : (l.map Prod.fst).Nodup) (h : (k, v) ∈ l) : alookup l k = some v := by
  induction l with
  | nil => simp at h
  | cons a t ih =>
    obtain ⟨ka, va⟩ := a
    rw [List.map_cons, List.nodup_cons] at nd
    rcases List.mem_cons.mp h with he | ht
    · obtain ⟨h1, h2⟩ := Prod.ext_iff.mp he
      simp only [] at h1 h2
      subst h1
      subst h2
      simp [alookup]
    · have hk : ka ≠ k := by
        intro hh
        subst hh
        exact nd.1 (List.mem_map.mpr ⟨(ka, v), ht, rfl⟩)
      simp [alookup, hk]
      exact ih nd.2 ht

theorem mem_map_fst_of_alookup {α β : Type} [DecidableEq α] {l : List (α × β)} {k : α} {v : β}
    (h : alookup l k = some v) : k ∈ l.map Prod.fst :=
  List.mem_map_of_mem Prod.fst (alookup_mem h)

@[simp]
theorem mem_eraseKey {α β : Type} [DecidableEq α] {l : List (α × β)} {k k' : α} {v' : β} :
    (k', v') ∈ eraseKey l k ↔ (k', v') ∈ l ∧ k' ≠ k := by
  simp [eraseKey, List.mem_filter]

theorem eraseKey_map_fst_sublist {α β : Type} [DecidableEq α] (l : List (α × β)) (k : α) :
    ((eraseKey l k).map Prod.fst).Sublist (l.map Prod.fst) :=
  List.Sublist.map Prod.fst (List.filter_sublist l)

theorem eraseKey_keys_nodup {α β : Type} [DecidableEq α] {l : List (α × β)} (k : α)
    (nd : (l.map Prod.fst).Nodup) : ((eraseKey l k).map Prod.fst).Nodup :=
  List.Nodup.sublist (eraseKey_map_fst_sublist l k) nd

theorem eraseKey_cons_self {α β : Type} [DecidableEq α] (t : List (α × β)) (k : α) (v : β) :
    eraseKey ((k, v) :: t) k = eraseKey t k := by
  simp [eraseKey, List.filter_cons]

theorem eraseKey_cons_ne {α β : Type} [DecidableEq α] (t : List (α × β)) {ka k : α} (va : β)
    (h : ka ≠ k) : eraseKey ((ka, va) :: t) k = (ka, va) :: eraseKey t k := by
  simp [eraseKey, List.filter_cons, h]

theorem eraseKey_eq_self {α β : Type} [DecidableEq α] {l : List (α × β)} {k : α}
    (h : k ∉ l.map Prod.fst) : eraseKey l k = l := by
  induction l with
  | nil => rfl
  | cons a t ih =>
    obtain ⟨ka, va⟩ := a
    have h1 : ka ≠ k := by
      intro hh
      exact h (by simp [hh])
    have h2 : k ∉ t.map Prod.fst := by
      intro hh
      exact h (by simp [hh])
    rw [eraseKey_cons_ne _ _ h1, ih h2]

theorem perm_cons_eraseKey {α β : Type} [DecidableEq α] {l : List (α × β)} {k : α} {v : β}
    (nd : (l.map Prod.fst).Nodup) (h : alookup l k = some v) :
    l.Perm ((k, v) :: eraseKey l k) := by
  induction l with
  | nil => simp [alookup] at h
  | cons a t ih =>
    obtain ⟨ka, va⟩ := a
    rw [List.map_cons, List.nodup_cons] at nd
    by_cases hk : ka = k
    · subst hk
      simp [alookup] at h
      subst h
      rw [eraseKey_cons_self, eraseKey_eq_self nd.1]
    · simp [alookup, hk] at h
      rw [eraseKey_cons_ne _ _ hk]
      exact (List.Perm.cons _ (ih nd.2 h)).trans (List.Perm.swap _ _ _)

theorem countP_of_alookup {α β : Type} [DecidableEq α] {l : List (α × β)} {k : α} {v : β}
    (nd : (l.map Prod.fst).Nodup) (h : alookup l k = some v) (f : α × β → Bool) :
    l.countP f = (eraseKey l k).countP f + (if f (k, v) then 1 else 0) := by
  have := List.Perm.countP_eq f (perm_cons_eraseKey nd h)
  rw [this, List.countP_cons]

theorem alookup_eraseKey_ne {α β : Type} [DecidableEq α] {l : List (α × β)} {k k' : α}
    (h : k' ≠ k) : alookup (eraseKey l k) k' = alookup l k' := by
  induction l with
  | nil => rfl
  | cons a t ih =>
    obtain ⟨ka, va⟩ := a
    by_cases hk : ka = k
    · subst hk
      rw [eraseKey_cons_self, ih]
      have hne : ka ≠ k' := fun hh => h (hh.symm)
      simp [alookup, hne]
    · rw [eraseKey_cons_ne _ _ hk]
      by_cases hq : ka = k'
      · simp [alookup, hq]
      · simp [alookup, hq, ih]

theorem alookup_eraseKey_self {α β : Type} [DecidableEq α] (l : List (α × β)) (k : α) :
    alookup (eraseKey l k) k = none := by
  apply alookup_none_of_not_mem
  intro hmem
  simp at hmem

theorem fupd_fupd {β : Type} (f : Nat → β) (k : Nat) (v w : β) :
    fupd (fupd f k v) k w = fupd f k w := by
  funext q
  by_cases h : q = k <;> simp [fupd, h]

/-! ## Explicit forms of the machine steps -/

theorem step_construct_existing_fresh {s : State} {tid p : Nat} {pl : Pool} (v : Nat)
    (htl : alookup s.tlPools tid = some p) (hpl : s.pools p = some pl)
    (hfl : pl.freeList = []) :
    step s (.construct tid v) =
      { s with
          cells := fupd s.cells s.nextCell (some ⟨v, 1⟩),
          allocOwner := fupd s.allocOwner s.nextCell (some p),
          pools := fupd s.pools p (some ⟨pl.refs + 1, []⟩),
          handles := (s.nextHandle, ⟨p, s.nextCell⟩) :: s.handles,
          nextCell := s.nextCell + 1,
          nextHandle := s.nextHandle + 1 } := by
  simp only [step, getPool, htl, bumpPoolRefs, hpl, poolConstruct, fupd_self, hfl]

theorem step_construct_existing_reuse {s : State} {tid p : Nat} {pl : Pool} (v : Nat)
    {c : Nat} {rest : List Nat}
    (htl : alookup s.tlPools tid = some p) (hpl : s.pools p = some pl)
    (hfl : pl.freeList = c :: rest) :
    step s (.construct tid v) =
      { s with
          cells := fupd s.cells c (some ⟨v, 1⟩),
          allocOwner := fupd s.allocOwner c (some p),
          pools := fupd s.pools p (some ⟨pl.refs + 1, rest⟩),
          handles := (s.nextHandle, ⟨p, c⟩) :: s.handles,
          nextHandle := s.nextHandle + 1 } := by
  simp only [step, getPool, htl, bumpPoolRefs, hpl, poolConstruct, fupd_self, hfl, fupd_fupd]

theorem step_construct_new {s : State} {tid : Nat} (v : Nat)
    (htl : alookup s.tlPools tid = none) :
    step s (.construct tid v) =
      { s with
          cells := fupd s.cells s.nextCell (some ⟨v, 1⟩),
          allocOwner := fupd s.allocOwner s.nextCell (some s.nextPool),
          pools := fupd s.pools s.nextPool (some ⟨2, []⟩),
          handles := (s.nextHandle, ⟨s.nextPool, s.nextCell⟩) :: s.handles,
          tlPools := (tid, s.nextPool) :: s.tlPools,
          nextCell := s.nextCell + 1,
          nextHandle := s.nextHandle + 1,
          nextPool := s.nextPool + 1 } := by
  simp only [step, getPool, htl, bumpPoolRefs, poolConstruct, fupd_self, fupd_fupd]

theorem step_copy_eq {s : State} {hid : Nat} {h : PooledHandle} {pl : Pool} {cl : Cell}
    (hlk : alookup s.handles hid = some h) (hpl : s.pools h.owner_ = some pl)
    (hcl : s.cells h.counter_ = some cl) :
    step s (.copy hid) =
      { s with
          cells := fupd s.cells h.counter_ (some { cl with uses := cl.uses + 1 }),
          pools := fupd s.pools h.owner_ (some { pl with refs := pl.refs + 1 }),
          handles := (s.nextHandle, h) :: s.handles,
          nextHandle := s.nextHandle + 1 } := by
  simp only [step, hlk, bumpPoolRefs, hpl]
  have : (fun q =>
      if q = h.counter_ then (s.cells q).map (fun (x : Cell) => { x with uses := x.uses + 1 })
      else s.cells q) = fupd s.cells h.counter_ (some { cl with uses := cl.uses + 1 }) := by
    funext q
    by_cases hq : q = h.counter_ <;> simp [fupd, hq, hcl]
  rw [this]

theorem step_destroy_keep {s : State} {tid hid : Nat} {h : PooledHandle} {pl : Pool} {cl : Cell}
    (hlk : alookup s.handles hid = some h) (hcl : s.cells h.counter_ = some cl)
    (hu : cl.uses ≠ 1) (hpl : s.pools h.owner_ = some pl) (hrefs : pl.refs - 1 ≠ 0) :
    step s (.destroy tid hid) =
      { s with
          cells := fupd s.cells h.counter_ (some { cl with uses := cl.uses - 1 }),
          pools := fupd s.pools h.owner_ (some { pl with refs := pl.refs - 1 }),
          handles := eraseKey s.handles hid } := by
  simp only [step, hlk, hcl, hu, if_false, dropPoolRef, hpl, hrefs]

theorem step_destroy_release_live {s : State} {tid hid : Nat} {h : PooledHandle} {pl : Pool}
    {cl : Cell}
    (hlk : alookup s.handles hid = some h) (hcl : s.cells h.counter_ = some cl)
    (hu : cl.uses = 1) (hpl : s.pools h.owner_ = some pl) (hrefs : pl.refs - 1 ≠ 0) :
    step s (.destroy tid hid) =
      { s with
          cells := fupd s.cells h.counter_ none,
          pools := fupd s.pools h.owner_ (some ⟨pl.refs - 1, h.counter_ :: pl.freeList⟩),
          handles := eraseKey s.handles hid } := by
  simp only [step, hlk, hcl, hu, if_true, poolDestroy, hpl, dropPoolRef, fupd_self, hrefs,
    fupd_fupd]
  simp

theorem step_destroy_release_dead {s : State} {tid hid : Nat} {h : PooledHandle} {pl : Pool}
    {cl : Cell}
    (hlk : alookup s.handles hid = some h) (hcl : s.cells h.counter_ = some cl)
    (hu : cl.uses = 1) (hpl : s.pools h.owner_ = some pl) (hrefs : pl.refs - 1 = 0) :
    step s (.destroy tid hid) =
      { s with
          cells := fupd s.cells h.counter_ none,
          pools := fupd s.pools h.owner_ none,
          handles := eraseKey s.handles hid } := by
  simp only [step, hlk, hcl, hu, if_true, poolDestroy, hpl, dropPoolRef, fupd_self, hrefs,
    fupd_fupd]

theorem step_threadExit_eq {s : State} {tid p : Nat}
    (htl : alookup s.tlPools tid = some p) :
    step s (.threadExit tid) =
      dropPoolRef { s with tlPools := eraseKey s.tlPools tid } p := by
  simp only [step, htl]

theorem dropPoolRef_dead {s : State} {p : Nat} {pl : Pool}
    (hpl : s.pools p = some pl) (h0 : pl.refs - 1 = 0) :
    dropPoolRef s p = { s with pools := fupd s.pools p none } := by
  simp only [dropPoolRef, hpl, h0, ite_true, if_true, eq_self_iff_true]

theorem dropPoolRef_live {s : State} {p : Nat} {pl : Pool}
    (hpl : s.pools p = some pl) (h0 : pl.refs - 1 ≠ 0) :
    dropPoolRef s p =
      { s with pools := fupd s.pools p (some { pl with refs := pl.refs - 1 }) } := by
  simp only [dropPoolRef, hpl, h0, ite_false, if_false]

theorem ownerCount_pos_of_mem {s : State} {k : Nat} {h : PooledHandle}
    (hm : (k, h) ∈ s.handles) : 0 < ownerCount s h.owner_ := by
  apply List.countP_pos_iff.mpr
  exact ⟨(k, h), hm, by simp⟩

theorem refCount_pos_of_mem {s : State} {k : Nat} {h : PooledHandle}
    (hm : (k, h) ∈ s.handles) : 0 < refCount s h.counter_ := by
  apply List.countP_pos_iff.mpr
  exact ⟨(k, h), hm, by simp⟩

theorem inv_dropPoolRef {s : State} {p : Nat} (pre : PreInv s p) :
    Inv (dropPoolRef s p) := by
  obtain ⟨pl, hpl⟩ : ∃ pl, s.pools p = some pl := by
    cases hp : s.pools p with
    | none => exact absurd hp pre.pool_live
    | some pl => exact ⟨pl, rfl⟩
  have hrefs : pl.refs = ownerCount s p + tlCount s p + 1 := by
    have h := pre.refs_eq p
    simp only [poolRefs, hpl, if_pos rfl] at h
    simpa using h
  by_cases h0 : pl.refs - 1 = 0
  · have hoc : ownerCount s p = 0 := by omega
    have htc : tlCount s p = 0 := by omega
    rw [dropPoolRef_dead hpl h0]
    refine ⟨pre.hkeys, pre.hkeyLt, pre.tlkeys, pre.cellLt, pre.ownLt, ?_, pre.hcell,
      pre.howner, ?_, pre.count, pre.cell_pos, ?_, ?_, ?_, ?_⟩
    · intro q hq
      have hq' : fupd s.pools p none q ≠ none := hq
      show q < s.nextPool
      by_cases hqp : q = p
      · subst hqp
        simp [fupd] at hq'
      · rw [fupd_ne _ _ hqp] at hq'
        exact pre.poolLt q hq'
    · intro k h hm
      have hm' : (k, h) ∈ s.handles := hm
      show fupd s.pools p none h.owner_ ≠ none
      by_cases hqp : h.owner_ = p
      · have hpos := ownerCount_pos_of_mem hm'
        rw [hqp] at hpos
        omega
      · rw [fupd_ne _ _ hqp]
        exact pre.hpool k h hm'
    · intro q pl' c hq hc
      have hq' : fupd s.pools p none q = some pl' := hq
      by_cases hqp : q = p
      · subst hqp
        simp [fupd] at hq'
      · rw [fupd_ne _ _ hqp] at hq'
        exact pre.free_own q pl' c hq' hc
    · intro q pl' hq
      have hq' : fupd s.pools p none q = some pl' := hq
      by_cases hqp : q = p
      · subst hqp
        simp [fupd] at hq'
      · rw [fupd_ne _ _ hqp] at hq'
        exact pre.free_nd q pl' hq'
    · intro q
      show (match fupd s.pools p none q with | some pl => pl.refs | none => 0) =
        ownerCount s q + tlCount s q
      by_cases hqp : q = p
      · subst hqp
        rw [fupd_self]
        show (0 : Nat) = ownerCount s q + tlCount s q
        omega
      · rw [fupd_ne _ _ hqp]
        have h := pre.refs_eq q
        simp only [poolRefs, if_neg hqp] at h
        simpa using h
    · intro q pl' hq
      have hq' : fupd s.pools p none q = some pl' := hq
      by_cases hqp : q = p
      · subst hqp
        simp [fupd] at hq'
      · rw [fupd_ne _ _ hqp] at hq'
        exact pre.refs_pos q pl' hq'
  · rw [dropPoolRef_live hpl h0]
    refine ⟨pre.hkeys, pre.hkeyLt, pre.tlkeys, pre.cellLt, pre.ownLt, ?_, pre.hcell,
      pre.howner, ?_, pre.count, pre.cell_pos, ?_, ?_, ?_, ?_⟩
    · intro q hq
      show q < s.nextPool
      by_cases hqp : q = p
      · subst hqp
        exact pre.poolLt q (by simp [hpl])
      · have hq' : fupd s.pools p (some { pl with refs := pl.refs - 1 }) q ≠ none := hq
        rw [fupd_ne _ _ hqp] at hq'
        exact pre.poolLt q hq'
    · intro k h hm
      have hm' : (k, h) ∈ s.handles := hm
      show fupd s.pools p (some { pl with refs := pl.refs - 1 }) h.owner_ ≠ none
      by_cases hqp : h.owner_ = p
      · rw [hqp, fupd_self]
        simp
      · rw [fupd_ne _ _ hqp]
        exact pre.hpool k h hm'
    · intro q pl' c hq hc
      have hq' : fupd s.pools p (some { pl with refs := pl.refs - 1 }) q = some pl' := hq
      by_cases hqp : q = p
      · subst hqp
        rw [fupd_self] at hq'
        obtain rfl : pl' = { pl with refs := pl.refs - 1 } := by
          injection hq' with he
          exact he.symm
        exact pre.free_own q pl c hpl hc
      · rw [fupd_ne _ _ hqp] at hq'
        exact pre.free_own q pl' c hq' hc
    · intro q pl' hq
      have hq' : fupd s.pools p (some { pl with refs := pl.refs - 1 }) q = some pl' := hq
      by_cases hqp : q = p
      · subst hqp
        rw [fupd_self] at hq'
        obtain rfl : pl' = { pl with refs := pl.refs - 1 } := by
          injection hq' with he
          exact he.symm
        exact pre.free_nd q pl hpl
      · rw [fupd_ne _ _ hqp] at hq'
        exact pre.free_nd q pl' hq'
    · intro q
      show (match fupd s.pools p (some { pl with refs := pl.refs - 1 }) q with
        | some pl => pl.refs | none => 0) = ownerCount s q + tlCount s q
      by_cases hqp : q = p
      · subst hqp
        rw [fupd_self]
        show pl.refs - 1 = ownerCount s q + tlCount s q
        omega
      · rw [fupd_ne _ _ hqp]
        have h := pre.refs_eq q
        simp only [poolRefs, if_neg hqp] at h
        simpa using h
    · intro q pl' hq
      have hq' : fupd s.pools p (some { pl with refs := pl.refs - 1 }) q = some pl' := hq
      by_cases hqp : q = p
      · subst hqp
        rw [fupd_self] at hq'
        obtain rfl : pl' = { pl with refs := pl.refs - 1 } := by
          injection hq' with he
          exact he.symm
        simpa using Nat.pos_of_ne_zero h0
      · rw [fupd_ne _ _ hqp] at hq'
        exact pre.refs_pos q pl' hq'

theorem tlCount_pos_of_mem {s : State} {t p : Nat} (hm : (t, p) ∈ s.tlPools) :
    0 < tlCount s p := by
  apply List.countP_pos_iff.mpr
  exact ⟨(t, p), hm, by simp⟩

theorem countP_ge_two {α : Type} {l : List α} (f : α → Bool) {a b : α}
    (ha : a ∈ l) (hb : b ∈ l) (hne : a ≠ b) (hfa : f a = true) (hfb : f b = true) :
    2 ≤ l.countP f := by
  induction l with
  | nil => simp at ha
  | cons x t ih =>
    rw [List.countP_cons]
    rcases List.mem_cons.mp ha with rfl | hat
    · have hbt : b ∈ t := by
        rcases List.mem_cons.mp hb with rfl | hbt
        · exact absurd rfl hne
        · exact hbt
      have h1 : 0 < t.countP f := List.countP_pos_iff.mpr ⟨b, hbt, hfb⟩
      rw [if_pos hfa]
      omega
    · rcases List.mem_cons.mp hb with rfl | hbt
      · have h1 : 0 < t.countP f := List.countP_pos_iff.mpr ⟨a, hat, hfa⟩
        rw [if_pos hfb]
        omega
      · have := ih hat hbt
        omega

theorem alookup_isSome_of_mem {α β : Type} [DecidableEq α] {l : List (α × β)} {k : α}
    (h : k ∈ l.map Prod.fst) : alookup l k ≠ none := by
  induction l with
  | nil => simp at h
  | cons a t ih =>
    obtain ⟨ka, va⟩ := a
    rw [List.map_cons] at h
    by_cases hk : ka = k
    · simp [alookup, hk]
    · have ht : k ∈ t.map Prod.fst := by
        rcases List.mem_cons.mp h with he | hmm
        · exact absurd he.symm hk
        · exact hmm
      simp [alookup, hk]
      exact ih ht

theorem refCount_zero_of_dead {s : State} (inv : Inv s) {c : Nat}
    (hc : s.cells c = none) : refCount s c = 0 := by
  apply List.countP_eq_zero.mpr
  intro q hq
  simp only [decide_eq_true_eq]
  intro he
  exact inv.hcell q.1 q.2 (by simpa using hq) (by rw [he, hc])

theorem counts_zero_of_dead_pool {s : State} (inv : Inv s) {p : Nat}
    (hp : s.pools p = none) : ownerCount s p = 0 ∧ tlCount s p = 0 := by
  have h := inv.refs_eq p
  simp only [poolRefs, hp] at h
  omega

theorem inv_step_copy {s : State} (hid : Nat) (inv : Inv s) : Inv (step s (.copy hid)) := by
  cases hlk : alookup s.handles hid with
  | none =>
    simp only [step, hlk]
    exact inv
  | some h =>
    have hm : (hid, h) ∈ s.handles := alookup_mem hlk
    obtain ⟨cl, hcl⟩ : ∃ cl, s.cells h.counter_ = some cl := by
      cases hc : s.cells h.counter_ with
      | none => exact absurd hc (inv.hcell hid h hm)
      | some cl => exact ⟨cl, rfl⟩
    obtain ⟨pl, hpl⟩ : ∃ pl, s.pools h.owner_ = some pl := by
      cases hp : s.pools h.owner_ with
      | none => exact absurd hp (inv.hpool hid h hm)
      | some pl => exact ⟨pl, rfl⟩
    rw [step_copy_eq hlk hpl hcl]
    have hnew : s.nextHandle ∉ s.handles.map Prod.fst := by
      intro hh
      rcases List.mem_map.mp hh with ⟨q, hq, he⟩
      have := inv.hkeyLt q.1 q.2 (by simpa using hq)
      omega
    refine ⟨?_, ?_, inv.tlkeys, ?_, inv.ownLt, ?_, ?_, ?_, ?_, ?_, ?_, ?_, ?_, ?_, ?_⟩
    · show (s.nextHandle :: s.handles.map Prod.fst).Nodup
      exact List.nodup_cons.mpr ⟨hnew, inv.hkeys⟩
    · intro k h' hm'
      show k < s.nextHandle + 1
      rcases List.mem_cons.mp hm' with he | ht
      · obtain ⟨h1, _⟩ := Prod.ext_iff.mp he
        simp only [] at h1
        omega
      · have := inv.hkeyLt k h' ht
        omega
    · intro c hc
      have hc' : fupd s.cells h.counter_ (some { cl with uses := cl.uses + 1 }) c ≠ none := hc
      show c < s.nextCell
      by_cases hcc : c = h.counter_
      · subst hcc
        exact inv.cellLt h.counter_ (by rw [hcl]; simp)
      · rw [fupd_ne _ _ hcc] at hc'
        exact inv.cellLt c hc'
    · intro q hq
      have hq' : fupd s.pools h.owner_ (some { pl with refs := pl.refs + 1 }) q ≠ none := hq
      show q < s.nextPool
      by_cases hqp : q = h.owner_
      · subst hqp
        exact inv.poolLt h.owner_ (by rw [hpl]; simp)
      · rw [fupd_ne _ _ hqp] at hq'
        exact inv.poolLt q hq'
    · intro k h' hm'
      show fupd s.cells h.counter_ (some { cl with uses := cl.uses + 1 }) h'.counter_ ≠ none
      by_cases hcc : h'.counter_ = h.counter_
      · rw [hcc, fupd_self]
        simp
      · rw [fupd_ne _ _ hcc]
        rcases List.mem_cons.mp hm' with he | ht
        · obtain ⟨_, h2⟩ := Prod.ext_iff.mp he
          simp only [] at h2
          subst h2
          exact absurd rfl hcc
        · exact inv.hcell k h' ht
    · intro k h' hm'
      show s.allocOwner h'.counter_ = some h'.owner_
      rcases List.mem_cons.mp hm' with he | ht
      · obtain ⟨_, h2⟩ := Prod.ext_iff.mp he
        simp only [] at h2
        rw [h2]
        exact inv.howner hid h hm
      · exact inv.howner k h' ht
    · intro k h' hm'
      show fupd s.pools h.owner_ (some { pl with refs := pl.refs + 1 }) h'.owner_ ≠ none
      by_cases hqp : h'.owner_ = h.owner_
      · rw [hqp, fupd_self]
        simp
      · rw [fupd_ne _ _ hqp]
        rcases List.mem_cons.mp hm' with he | ht
        · obtain ⟨_, h2⟩ := Prod.ext_iff.mp he
          simp only [] at h2
          subst h2
          exact absurd rfl hqp
        · exact inv.hpool k h' ht
    · intro c cl' hc
      have hc' : fupd s.cells h.counter_ (some { cl with uses := cl.uses + 1 }) c = some cl' := hc
      show cl'.uses = ((s.nextHandle, h) :: s.handles).countP (fun q => decide (q.2.counter_ = c))
      rw [List.countP_cons]
      by_cases hcc : c = h.counter_
      · rw [hcc] at hc' ⊢
        rw [fupd_self] at hc'
        obtain rfl : cl' = { cl with uses := cl.uses + 1 } := by
          injection hc' with he
          exact he.symm
        have hcnt := inv.count h.counter_ cl hcl
        simp only [refCount] at hcnt
        simp only [decide_eq_true_eq]
        rw [if_pos trivial]
        omega
      · rw [fupd_ne _ _ hcc] at hc'
        have hcnt := inv.count c cl' hc'
        simp only [refCount] at hcnt
        simp only [decide_eq_true_eq]
        rw [if_neg (fun hh => hcc hh.symm)]
        omega
    · intro c cl' hc
      have hc' : fupd s.cells h.counter_ (some { cl with uses := cl.uses + 1 }) c = some cl' := hc
      by_cases hcc : c = h.counter_
      · subst hcc
        rw [fupd_self] at hc'
        obtain rfl : cl' = { cl with uses := cl.uses + 1 } := by
          injection hc' with he
          exact he.symm
        simp
      · rw [fupd_ne _ _ hcc] at hc'
        exact inv.cell_pos c cl' hc'
    · intro q pl' c hq hc
      have hq' : fupd s.pools h.owner_ (some { pl with refs := pl.refs + 1 }) q = some pl' := hq
      have hstep : s.allocOwner c = some q ∧ s.cells c = none ∧ c < s.nextCell := by
        by_cases hqp : q = h.owner_
        · rw [hqp] at hq' ⊢
          rw [fupd_self] at hq'
          obtain rfl : pl' = { pl with refs := pl.refs + 1 } := by
            injection hq' with he
            exact he.symm
          exact inv.free_own h.owner_ pl c hpl hc
        · rw [fupd_ne _ _ hqp] at hq'
          exact inv.free_own q pl' c hq' hc
      refine ⟨hstep.1, ?_, hstep.2.2⟩
      have hcc : c ≠ h.counter_ := by
        intro hh
        rw [hh, hcl] at hstep
        exact absurd hstep.2.1 (by simp)
      show fupd s.cells h.counter_ (some { cl with uses := cl.uses + 1 }) c = none
      rw [fupd_ne _ _ hcc]
      exact hstep.2.1
    · intro q pl' hq
      have hq' : fupd s.pools h.owner_ (some { pl with refs := pl.refs + 1 }) q = some pl' := hq
      by_cases hqp : q = h.owner_
      · rw [hqp] at hq'
        rw [fupd_self] at hq'
        obtain rfl : pl' = { pl with refs := pl.refs + 1 } := by
          injection hq' with he
          exact he.symm
        exact inv.free_nd h.owner_ pl hpl
      · rw [fupd_ne _ _ hqp] at hq'
        exact inv.free_nd q pl' hq'
    · intro q
      show (match fupd s.pools h.owner_ (some { pl with refs := pl.refs + 1 }) q with
        | some pl => pl.refs | none => 0) =
        ((s.nextHandle, h) :: s.handles).countP (fun x => decide (x.2.owner_ = q)) +
          tlCount s q
      rw [List.countP_cons]
      have hbase := inv.refs_eq q
      simp only [poolRefs, ownerCount] at hbase
      by_cases hqp : q = h.owner_
      · rw [hqp] at hbase ⊢
        rw [hpl] at hbase
        have hbase' : pl.refs =
            s.handles.countP (fun x => decide (x.2.owner_ = h.owner_)) + tlCount s h.owner_ :=
          hbase
        rw [fupd_self]
        have hl : (match (some { refs := pl.refs + 1, freeList := pl.freeList } : Option Pool) with
          | some pl => pl.refs | none => 0) = pl.refs + 1 := rfl
        rw [hl]
        simp only [decide_eq_true_eq]
        rw [if_pos trivial]
        omega
      · rw [fupd_ne _ _ hqp]
        have hne : ¬(h.owner_ = q) := fun hh => hqp hh.symm
        simp only [decide_eq_true_eq]
        rw [if_neg hne]
        omega
    · intro q pl' hq
      have hq' : fupd s.pools h.owner_ (some { pl with refs := pl.refs + 1 }) q = some pl' := hq
      by_cases hqp : q = h.owner_
      · rw [hqp] at hq'
        rw [fupd_self] at hq'
        obtain rfl : pl' = { pl with refs := pl.refs + 1 } := by
          injection hq' with he
          exact he.symm
        simp
      · rw [fupd_ne _ _ hqp] at hq'
        exact inv.refs_pos q pl' hq'

theorem inv_step_destroy {s : State} (tid hid : Nat) (inv : Inv s) :
    Inv (step s (.destroy tid hid)) := by
  cases hlk : alookup s.handles hid with
  | none =>
    simp only [step, hlk]
    exact inv
  | some h =>
    have hm : (hid, h) ∈ s.handles := alookup_mem hlk
    obtain ⟨cl, hcl⟩ : ∃ cl, s.cells h.counter_ = some cl := by
      cases hc : s.cells h.counter_ with
      | none => exact absurd hc (inv.hcell hid h hm)
      | some cl => exact ⟨cl, rfl⟩
    obtain ⟨pl, hpl⟩ : ∃ pl, s.pools h.owner_ = some pl := by
      cases hp : s.pools h.owner_ with
      | none => exact absurd hp (inv.hpool hid h hm)
      | some pl => exact ⟨pl, rfl⟩
    have hcnt : cl.uses = refCount s h.counter_ := inv.count _ _ hcl
    have hrefs : poolRefs s h.owner_ = ownerCount s h.owner_ + tlCount s h.owner_ :=
      inv.refs_eq h.owner_
    simp only [ownerCount] at hrefs
    have hprefs : poolRefs s h.owner_ = pl.refs := by simp [poolRefs, hpl]
    have ndE : ((eraseKey s.handles hid).map Prod.fst).Nodup :=
      eraseKey_keys_nodup hid inv.hkeys
    have hCEo := countP_of_alookup inv.hkeys hlk (fun q => decide (q.2.owner_ = h.owner_))
    rw [if_pos (by simp)] at hCEo
    by_cases hu : cl.uses = 1
    · have honly : ∀ k h', (k, h') ∈ eraseKey s.handles hid → h'.counter_ ≠ h.counter_ := by
        intro k h' hmE he
        have hk := mem_eraseKey.mp hmE
        have h2 : 2 ≤ s.handles.countP (fun q => decide (q.2.counter_ = h.counter_)) := by
          apply countP_ge_two _ hk.1 hm
          · intro hh
            exact hk.2 (congrArg Prod.fst hh)
          · simp [he]
          · simp
        have : refCount s h.counter_ = s.handles.countP
            (fun q => decide (q.2.counter_ = h.counter_)) := rfl
        omega
      have hstep : step s (.destroy tid hid) =
          dropPoolRef
            { s with
                cells := fupd s.cells h.counter_ none,
                pools := fupd s.pools h.owner_
                  (some { pl with freeList := h.counter_ :: pl.freeList }),
                handles := eraseKey s.handles hid } h.owner_ := by
        simp only [step, hlk, hcl, hu, ite_true, poolDestroy, hpl, eq_self_iff_true]
      rw [hstep]
      apply inv_dropPoolRef
      refine ⟨ndE, ?_, inv.tlkeys, ?_, inv.ownLt, ?_, ?_, ?_, ?_, ?_, ?_, ?_, ?_, ?_, ?_, ?_⟩
      · intro k h' hmE
        exact inv.hkeyLt k h' (mem_eraseKey.mp hmE).1
      · intro c hc
        have hc' : fupd s.cells h.counter_ none c ≠ none := hc
        show c < s.nextCell
        by_cases hcc : c = h.counter_
        · rw [hcc, fupd_self] at hc'
          exact absurd rfl hc'
        · rw [fupd_ne _ _ hcc] at hc'
          exact inv.cellLt c hc'
      · intro q hq
        have hq' : fupd s.pools h.owner_
            (some { pl with freeList := h.counter_ :: pl.freeList }) q ≠ none := hq
        show q < s.nextPool
        by_cases hqp : q = h.owner_
        · rw [hqp]
          exact inv.poolLt h.owner_ (by rw [hpl]; simp)
        · rw [fupd_ne _ _ hqp] at hq'
          exact inv.poolLt q hq'
      · intro k h' hmE
        show fupd s.cells h.counter_ none h'.counter_ ≠ none
        have hne := honly k h' hmE
        rw [fupd_ne _ _ hne]
        exact inv.hcell k h' (mem_eraseKey.mp hmE).1
      · intro k h' hmE
        exact inv.howner k h' (mem_eraseKey.mp hmE).1
      · intro k h' hmE
        show fupd s.pools h.owner_
            (some { pl with freeList := h.counter_ :: pl.freeList }) h'.owner_ ≠ none
        by_cases hqp : h'.owner_ = h.owner_
        · rw [hqp, fupd_self]
          simp
        · rw [fupd_ne _ _ hqp]
          exact inv.hpool k h' (mem_eraseKey.mp hmE).1
      · intro c cl' hc
        have hc' : fupd s.cells h.counter_ none c = some cl' := hc
        by_cases hcc : c = h.counter_
        · rw [hcc, fupd_self] at hc'
          exact absurd hc' (by simp)
        · rw [fupd_ne _ _ hcc] at hc'
          have hbase := inv.count c cl' hc'
          simp only [refCount] at hbase
          show cl'.uses = (eraseKey s.handles hid).countP (fun q => decide (q.2.counter_ = c))
          have hCE := countP_of_alookup inv.hkeys hlk (fun q => decide (q.2.counter_ = c))
          rw [if_neg (by
            simp only [decide_eq_true_eq]
            exact fun hh => hcc (hh.symm))] at hCE
          omega
      · intro c cl' hc
        have hc' : fupd s.cells h.counter_ none c = some cl' := hc
        by_cases hcc : c = h.counter_
        · rw [hcc, fupd_self] at hc'
          exact absurd hc' (by simp)
        · rw [fupd_ne _ _ hcc] at hc'
          exact inv.cell_pos c cl' hc'
      · intro q pl' c hq hc
        have hq' : fupd s.pools h.owner_
            (some { pl with freeList := h.counter_ :: pl.freeList }) q = some pl' := hq
        by_cases hqp : q = h.owner_
        · rw [hqp] at hq' ⊢
          rw [fupd_self] at hq'
          obtain rfl : pl' = { pl with freeList := h.counter_ :: pl.freeList } := by
            injection hq' with he
            exact he.symm
          have hc2 : c ∈ h.counter_ :: pl.freeList := hc
          rcases List.mem_cons.mp hc2 with rfl | hct
          · refine ⟨inv.howner hid h hm, ?_, ?_⟩
            · show fupd s.cells h.counter_ none h.counter_ = none
              rw [fupd_self]
            · exact inv.cellLt h.counter_ (by rw [hcl]; simp)
          · obtain ⟨ho, hdead, hlt⟩ := inv.free_own h.owner_ pl c hpl hct
            have hcc : c ≠ h.counter_ := by
              intro hh
              rw [hh, hcl] at hdead
              exact absurd hdead (by simp)
            refine ⟨ho, ?_, hlt⟩
            show fupd s.cells h.counter_ none c = none
            rw [fupd_ne _ _ hcc]
            exact hdead
        · rw [fupd_ne _ _ hqp] at hq'
          obtain ⟨ho, hdead, hlt⟩ := inv.free_own q pl' c hq' hc
          have hcc : c ≠ h.counter_ := by
            intro hh
            rw [hh, hcl] at hdead
            exact absurd hdead (by simp)
          exact ⟨ho, by show fupd s.cells h.counter_ none c = none
                        rw [fupd_ne _ _ hcc]
                        exact hdead, hlt⟩
      · intro q pl' hq
        have hq' : fupd s.pools h.owner_
            (some { pl with freeList := h.counter_ :: pl.freeList }) q = some pl' := hq
        by_cases hqp : q = h.owner_
        · rw [hqp] at hq'
          rw [fupd_self] at hq'
          obtain rfl : pl' = { pl with freeList := h.counter_ :: pl.freeList } := by
            injection hq' with he
            exact he.symm
          show (h.counter_ :: pl.freeList).Nodup
          refine List.nodup_cons.mpr ⟨?_, inv.free_nd h.owner_ pl hpl⟩
          intro hmem
          obtain ⟨_, hdead, _⟩ := inv.free_own h.owner_ pl h.counter_ hpl hmem
          rw [hcl] at hdead
          exact absurd hdead (by simp)
        · rw [fupd_ne _ _ hqp] at hq'
          exact inv.free_nd q pl' hq'
      · intro q
        show (match fupd s.pools h.owner_
            (some { pl with freeList := h.counter_ :: pl.freeList }) q with
          | some pl => pl.refs | none => 0) =
          (eraseKey s.handles hid).countP (fun x => decide (x.2.owner_ = q)) + tlCount s q +
            (if q = h.owner_ then 1 else 0)
        by_cases hqp : q = h.owner_
        · rw [hqp, fupd_self, if_pos rfl]
          show pl.refs =
            (eraseKey s.handles hid).countP (fun x => decide (x.2.owner_ = h.owner_)) +
              tlCount s h.owner_ + 1
          omega
        · rw [fupd_ne _ _ hqp, if_neg hqp]
          have hbase := inv.refs_eq q
          simp only [poolRefs, ownerCount] at hbase ⊢
          have hCE := countP_of_alookup inv.hkeys hlk (fun x => decide (x.2.owner_ = q))
          rw [if_neg (by
            simp only [decide_eq_true_eq]
            exact fun hh => hqp (hh.symm))] at hCE
          omega
      · intro q pl' hq
        have hq' : fupd s.pools h.owner_
            (some { pl with freeList := h.counter_ :: pl.freeList }) q = some pl' := hq
        by_cases hqp : q = h.owner_
        · rw [hqp] at hq'
          rw [fupd_self] at hq'
          obtain rfl : pl' = { pl with freeList := h.counter_ :: pl.freeList } := by
            injection hq' with he
            exact he.symm
          exact inv.refs_pos h.owner_ pl hpl
        · rw [fupd_ne _ _ hqp] at hq'
          exact inv.refs_pos q pl' hq'
      · show fupd s.pools h.owner_
          (some { pl with freeList := h.counter_ :: pl.freeList }) h.owner_ ≠ none
        rw [fupd_self]
        simp
    · have hstep : step s (.destroy tid hid) =
          dropPoolRef
            { s with
                cells := fupd s.cells h.counter_ (some { cl with uses := cl.uses - 1 }),
                handles := eraseKey s.handles hid } h.owner_ := by
        simp only [step, hlk, hcl, hu, ite_false, if_false]
      rw [hstep]
      apply inv_dropPoolRef
      have hpos : 0 < cl.uses := inv.cell_pos _ _ hcl
      refine ⟨ndE, ?_, inv.tlkeys, ?_, inv.ownLt, ?_, ?_, ?_, ?_, ?_, ?_, ?_, ?_, ?_, ?_, ?_⟩
      · intro k h' hmE
        exact inv.hkeyLt k h' (mem_eraseKey.mp hmE).1
      · intro c hc
        have hc' : fupd s.cells h.counter_ (some { cl with uses := cl.uses - 1 }) c ≠ none := hc
        show c < s.nextCell
        by_cases hcc : c = h.counter_
        · rw [hcc]
          exact inv.cellLt h.counter_ (by rw [hcl]; simp)
        · rw [fupd_ne _ _ hcc] at hc'
          exact inv.cellLt c hc'
      · intro q hq
        exact inv.poolLt q hq
      · intro k h' hmE
        show fupd s.cells h.counter_ (some { cl with uses := cl.uses - 1 }) h'.counter_ ≠ none
        by_cases hcc : h'.counter_ = h.counter_
        · rw [hcc, fupd_self]
          simp
        · rw [fupd_ne _ _ hcc]
          exact inv.hcell k h' (mem_eraseKey.mp hmE).1
      · intro k h' hmE
        exact inv.howner k h' (mem_eraseKey.mp hmE).1
      · intro k h' hmE
        exact inv.hpool k h' (mem_eraseKey.mp hmE).1
      · intro c cl' hc
        have hc' : fupd s.cells h.counter_ (some { cl with uses := cl.uses - 1 }) c = some cl' :=
          hc
        show cl'.uses = (eraseKey s.handles hid).countP (fun q => decide (q.2.counter_ = c))
        have hCE := countP_of_alookup inv.hkeys hlk (fun q => decide (q.2.counter_ = c))
        by_cases hcc : c = h.counter_
        · rw [hcc] at hc' hCE ⊢
          rw [fupd_self] at hc'
          obtain rfl : cl' = { cl with uses := cl.uses - 1 } := by
            injection hc' with he
            exact he.symm
          rw [if_pos (by simp)] at hCE
          simp only [refCount] at hcnt
          show cl.uses - 1 =
            (eraseKey s.handles hid).countP (fun q => decide (q.2.counter_ = h.counter_))
          omega
        · rw [fupd_ne _ _ hcc] at hc'
          have hbase := inv.count c cl' hc'
          simp only [refCount] at hbase
          rw [if_neg (by
            simp only [decide_eq_true_eq]
            exact fun hh => hcc (hh.symm))] at hCE
          omega
      · intro c cl' hc
        have hc' : fupd s.cells h.counter_ (some { cl with uses := cl.uses - 1 }) c = some cl' :=
          hc
        by_cases hcc : c = h.counter_
        · rw [hcc] at hc'
          rw [fupd_self] at hc'
          obtain rfl : cl' = { cl with uses := cl.uses - 1 } := by
            injection hc' with he
            exact he.symm
          show 0 < cl.uses - 1
          omega
        · rw [fupd_ne _ _ hcc] at hc'
          exact inv.cell_pos c cl' hc'
      · intro q pl' c hq hc
        obtain ⟨ho, hdead, hlt⟩ := inv.free_own q pl' c hq hc
        have hcc : c ≠ h.counter_ := by
          intro hh
          rw [hh, hcl] at hdead
          exact absurd hdead (by simp)
        exact ⟨ho, by show fupd s.cells h.counter_ (some { cl with uses := cl.uses - 1 }) c = none
                      rw [fupd_ne _ _ hcc]
                      exact hdead, hlt⟩
      · intro q pl' hq
        exact inv.free_nd q pl' hq
      · intro q
        show poolRefs s q =
          (eraseKey s.handles hid).countP (fun x => decide (x.2.owner_ = q)) + tlCount s q +
            (if q = h.owner_ then 1 else 0)
        have hbase := inv.refs_eq q
        simp only [ownerCount] at hbase
        by_cases hqp : q = h.owner_
        · rw [if_pos hqp]
          rw [hqp] at hbase ⊢
          omega
        · rw [if_neg hqp]
          have hCE := countP_of_alookup inv.hkeys hlk (fun x => decide (x.2.owner_ = q))
          rw [if_neg (by
            simp only [decide_eq_true_eq]
            exact fun hh => hqp (hh.symm))] at hCE
          omega
      · intro q pl' hq
        exact inv.refs_pos q pl' hq
      · show s.pools h.owner_ ≠ none
        rw [hpl]
        simp

theorem inv_step_threadExit {s : State} (tid : Nat) (inv : Inv s) :
    Inv (step s (.threadExit tid)) := by
  cases htl : alookup s.tlPools tid with
  | none =>
    simp only [step, htl]
    exact inv
  | some p =>
    have hm : (tid, p) ∈ s.tlPools := alookup_mem htl
    have htcpos : 0 < tlCount s p := tlCount_pos_of_mem hm
    have hrefs := inv.refs_eq p
    have hlive : s.pools p ≠ none := by
      intro hdead
      simp only [poolRefs, hdead] at hrefs
      omega
    rw [step_threadExit_eq htl]
    apply inv_dropPoolRef
    have hCT := countP_of_alookup inv.tlkeys htl (fun q => decide (q.2 = p))
    rw [if_pos (by simp)] at hCT
    refine ⟨inv.hkeys, inv.hkeyLt, eraseKey_keys_nodup tid inv.tlkeys, inv.cellLt, inv.ownLt,
      inv.poolLt, inv.hcell, inv.howner, inv.hpool, inv.count, inv.cell_pos, inv.free_own,
      inv.free_nd, ?_, inv.refs_pos, hlive⟩
    intro q
    show poolRefs s q =
      ownerCount s q + (eraseKey s.tlPools tid).countP (fun x => decide (x.2 = q)) +
        (if q = p then 1 else 0)
    have hbase := inv.refs_eq q
    simp only [tlCount] at hbase
    by_cases hqp : q = p
    · rw [if_pos hqp]
      rw [hqp] at hbase ⊢
      omega
    · rw [if_neg hqp]
      have hCT2 := countP_of_alookup inv.tlkeys htl (fun x => decide (x.2 = q))
      rw [if_neg (by
        simp only [decide_eq_true_eq]
        exact fun hh => hqp (hh.symm))] at hCT2
      omega

theorem inv_step_construct {s : State} (tid v : Nat) (inv : Inv s) :
    Inv (step s (.construct tid v)) := by
  have hnewh : s.nextHandle ∉ s.handles.map Prod.fst := by
    intro hh
    rcases List.mem_map.mp hh with ⟨q, hq, he⟩
    have := inv.hkeyLt q.1 q.2 (by simpa using hq)
    omega
  have hcellfresh : s.cells s.nextCell = none := by
    cases hc : s.cells s.nextCell with
    | none => rfl
    | some cl =>
      have := inv.cellLt s.nextCell (by rw [hc]; simp)
      omega
  have hownfresh : s.allocOwner s.nextCell = none := by
    cases hc : s.allocOwner s.nextCell with
    | none => rfl
    | some q =>
      have := inv.ownLt s.nextCell (by rw [hc]; simp)
      omega
  have hrcfresh : refCount s s.nextCell = 0 := refCount_zero_of_dead inv hcellfresh
  simp only [refCount] at hrcfresh
  cases htl : alookup s.tlPools tid with
  | none =>
    have hpoolfresh : s.pools s.nextPool = none := by
      cases hc : s.pools s.nextPool with
      | none => rfl
      | some pl =>
        have := inv.poolLt s.nextPool (by rw [hc]; simp)
        omega
    have hz := counts_zero_of_dead_pool inv hpoolfresh
    have hoc0 : s.handles.countP (fun q => decide (q.2.owner_ = s.nextPool)) = 0 := hz.1
    have htc0 : s.tlPools.countP (fun q => decide (q.2 = s.nextPool)) = 0 := hz.2
    have htidfresh : tid ∉ s.tlPools.map Prod.fst := fun hh => alookup_isSome_of_mem hh htl
    rw [step_construct_new v htl]
    refine ⟨?_, ?_, ?_, ?_, ?_, ?_, ?_, ?_, ?_, ?_, ?_, ?_, ?_, ?_, ?_⟩
    · show (s.nextHandle :: s.handles.map Prod.fst).Nodup
      exact List.nodup_cons.mpr ⟨hnewh, inv.hkeys⟩
    · intro k h' hm'
      show k < s.nextHandle + 1
      rcases List.mem_cons.mp hm' with he | ht
      · obtain ⟨h1, _⟩ := Prod.ext_iff.mp he
        simp only [] at h1
        omega
      · have := inv.hkeyLt k h' ht
        omega
    · show (tid :: s.tlPools.map Prod.fst).Nodup
      exact List.nodup_cons.mpr ⟨htidfresh, inv.tlkeys⟩
    · intro c hc
      have hc' : fupd s.cells s.nextCell (some ⟨v, 1⟩) c ≠ none := hc
      show c < s.nextCell + 1
      by_cases hcc : c = s.nextCell
      · omega
      · rw [fupd_ne _ _ hcc] at hc'
        have := inv.cellLt c hc'
        omega
    · intro c hc
      have hc' : fupd s.allocOwner s.nextCell (some s.nextPool) c ≠ none := hc
      show c < s.nextCell + 1
      by_cases hcc : c = s.nextCell
      · omega
      · rw [fupd_ne _ _ hcc] at hc'
        have := inv.ownLt c hc'
        omega
    · intro q hq
      have hq' : fupd s.pools s.nextPool (some ⟨2, []⟩) q ≠ none := hq
      show q < s.nextPool + 1
      by_cases hqp : q = s.nextPool
      · omega
      · rw [fupd_ne _ _ hqp] at hq'
        have := inv.poolLt q hq'
        omega
    · intro k h' hm'
      show fupd s.cells s.nextCell (some ⟨v, 1⟩) h'.counter_ ≠ none
      rcases List.mem_cons.mp hm' with he | ht
      · obtain ⟨_, h2⟩ := Prod.ext_iff.mp he
        simp only [] at h2
        rw [h2, fupd_self]
        simp
      · have hcc : h'.counter_ ≠ s.nextCell := by
          intro hh
          exact inv.hcell k h' ht (by rw [hh, hcellfresh])
        rw [fupd_ne _ _ hcc]
        exact inv.hcell k h' ht
    · intro k h' hm'
      show fupd s.allocOwner s.nextCell (some s.nextPool) h'.counter_ = some h'.owner_
      rcases List.mem_cons.mp hm' with he | ht
      · obtain ⟨_, h2⟩ := Prod.ext_iff.mp he
        simp only [] at h2
        rw [h2, fupd_self]
      · have hcc : h'.counter_ ≠ s.nextCell := by
          intro hh
          exact inv.hcell k h' ht (by rw [hh, hcellfresh])
        rw [fupd_ne _ _ hcc]
        exact inv.howner k h' ht
    · intro k h' hm'
      show fupd s.pools s.nextPool (some ⟨2, []⟩) h'.owner_ ≠ none
      rcases List.mem_cons.mp hm' with he | ht
      · obtain ⟨_, h2⟩ := Prod.ext_iff.mp he
        simp only [] at h2
        rw [h2, fupd_self]
        simp
      · by_cases hqp : h'.owner_ = s.nextPool
        · rw [hqp, fupd_self]
          simp
        · rw [fupd_ne _ _ hqp]
          exact inv.hpool k h' ht
    · intro c cl' hc
      have hc' : fupd s.cells s.nextCell (some ⟨v, 1⟩) c = some cl' := hc
      show cl'.uses =
        ((s.nextHandle, (⟨s.nextPool, s.nextCell⟩ : PooledHandle)) :: s.handles).countP
          (fun q => decide (q.2.counter_ = c))
      rw [List.countP_cons]
      by_cases hcc : c = s.nextCell
      · rw [hcc] at hc' ⊢
        rw [fupd_self] at hc'
        obtain rfl : cl' = ⟨v, 1⟩ := by
          injection hc' with he
          exact he.symm
        simp only [decide_eq_true_eq]
        rw [if_pos trivial]
        omega
      · rw [fupd_ne _ _ hcc] at hc'
        have hbase := inv.count c cl' hc'
        simp only [refCount] at hbase
        simp only [decide_eq_true_eq]
        rw [if_neg (fun hh => hcc (hh.symm))]
        omega
    · intro c cl' hc
      have hc' : fupd s.cells s.nextCell (some ⟨v, 1⟩) c = some cl' := hc
      by_cases hcc : c = s.nextCell
      · rw [hcc] at hc'
        rw [fupd_self] at hc'
        obtain rfl : cl' = ⟨v, 1⟩ := by
          injection hc' with he
          exact he.symm
        simp
      · rw [fupd_ne _ _ hcc] at hc'
        exact inv.cell_pos c cl' hc'
    · intro q pl' c hq hc
      have hq' : fupd s.pools s.nextPool (some ⟨2, []⟩) q = some pl' := hq
      by_cases hqp : q = s.nextPool
      · rw [hqp] at hq'
        rw [fupd_self] at hq'
        obtain rfl : pl' = ⟨2, []⟩ := by
          injection hq' with he
          exact he.symm
        exact absurd hc (by simp)
      · rw [fupd_ne _ _ hqp] at hq'
        obtain ⟨ho, hdead, hlt⟩ := inv.free_own q pl' c hq' hc
        have hcc : c ≠ s.nextCell := by omega
        refine ⟨?_, ?_, ?_⟩
        · show fupd s.allocOwner s.nextCell (some s.nextPool) c = some q
          rw [fupd_ne _ _ hcc]
          exact ho
        · show fupd s.cells s.nextCell (some ⟨v, 1⟩) c = none
          rw [fupd_ne _ _ hcc]
          exact hdead
        · show c < s.nextCell + 1
          omega
    · intro q pl' hq
      have hq' : fupd s.pools s.nextPool (some ⟨2, []⟩) q = some pl' := hq
      by_cases hqp : q = s.nextPool
      · rw [hqp] at hq'
        rw [fupd_self] at hq'
        obtain rfl : pl' = ⟨2, []⟩ := by
          injection hq' with he
          exact he.symm
        simp
      · rw [fupd_ne _ _ hqp] at hq'
        exact inv.free_nd q pl' hq'
    · intro q
      show (match fupd s.pools s.nextPool (some ⟨2, []⟩) q with
        | some pl => pl.refs | none => 0) =
        ((s.nextHandle, (⟨s.nextPool, s.nextCell⟩ : PooledHandle)) :: s.handles).countP
          (fun x => decide (x.2.owner_ = q)) +
          ((tid, s.nextPool) :: s.tlPools).countP (fun x => decide (x.2 = q))
      rw [List.countP_cons, List.countP_cons]
      by_cases hqp : q = s.nextPool
      · rw [hqp, fupd_self]
        simp only [decide_eq_true_eq]
        rw [if_pos trivial]
        show (2 : Nat) =
          s.handles.countP (fun x => decide (x.2.owner_ = s.nextPool)) + 1 +
            (s.tlPools.countP (fun x => decide (x.2 = s.nextPool)) + 1)
        omega
      · rw [fupd_ne _ _ hqp]
        have hbase := inv.refs_eq q
        simp only [poolRefs, ownerCount, tlCount] at hbase
        simp only [decide_eq_true_eq]
        rw [if_neg (fun hh => hqp (hh.symm))]
        omega
    · intro q pl' hq
      have hq' : fupd s.pools s.nextPool (some ⟨2, []⟩) q = some pl' := hq
      by_cases hqp : q = s.nextPool
      · rw [hqp] at hq'
        rw [fupd_self] at hq'
        obtain rfl : pl' = ⟨2, []⟩ := by
          injection hq' with he
          exact he.symm
        simp
      · rw [fupd_ne _ _ hqp] at hq'
        exact inv.refs_pos q pl' hq'
  | some p =>
    have hmtl : (tid, p) ∈ s.tlPools := alookup_mem htl
    have htcpos : 0 < tlCount s p := tlCount_pos_of_mem hmtl
    have hrefsp := inv.refs_eq p
    obtain ⟨pl, hpl⟩ : ∃ pl, s.pools p = some pl := by
      cases hp : s.pools p with
      | none =>
        simp only [poolRefs, hp] at hrefsp
        omega
      | some pl => exact ⟨pl, rfl⟩
    cases hfl : pl.freeList with
    | nil =>
      rw [step_construct_existing_fresh v htl hpl hfl]
      refine ⟨?_, ?_, inv.tlkeys, ?_, ?_, ?_, ?_, ?_, ?_, ?_, ?_, ?_, ?_, ?_, ?_⟩
      · show (s.nextHandle :: s.handles.map Prod.fst).Nodup
        exact List.nodup_cons.mpr ⟨hnewh, inv.hkeys⟩
      · intro k h' hm'
        show k < s.nextHandle + 1
        rcases List.mem_cons.mp hm' with he | ht
        · obtain ⟨h1, _⟩ := Prod.ext_iff.mp he
          simp only [] at h1
          omega
        · have := inv.hkeyLt k h' ht
          omega
      · intro c hc
        have hc' : fupd s.cells s.nextCell (some ⟨v, 1⟩) c ≠ none := hc
        show c < s.nextCell + 1
        by_cases hcc : c = s.nextCell
        · omega
        · rw [fupd_ne _ _ hcc] at hc'
          have := inv.cellLt c hc'
          omega
      · intro c hc
        have hc' : fupd s.allocOwner s.nextCell (some p) c ≠ none := hc
        show c < s.nextCell + 1
        by_cases hcc : c = s.nextCell
        · omega
        · rw [fupd_ne _ _ hcc] at hc'
          have := inv.ownLt c hc'
          omega
      · intro q hq
        have hq' : fupd s.pools p (some ⟨pl.refs + 1, []⟩) q ≠ none := hq
        show q < s.nextPool
        by_cases hqp : q = p
        · rw [hqp]
          exact inv.poolLt p (by rw [hpl]; simp)
        · rw [fupd_ne _ _ hqp] at hq'
          exact inv.poolLt q hq'
      · intro k h' hm'
        show fupd s.cells s.nextCell (some ⟨v, 1⟩) h'.counter_ ≠ none
        rcases List.mem_cons.mp hm' with he | ht
        · obtain ⟨_, h2⟩ := Prod.ext_iff.mp he
          simp only [] at h2
          rw [h2, fupd_self]
          simp
        · have hcc : h'.counter_ ≠ s.nextCell := by
            intro hh
            exact inv.hcell k h' ht (by rw [hh, hcellfresh])
          rw [fupd_ne _ _ hcc]
          exact inv.hcell k h' ht
      · intro k h' hm'
        show fupd s.allocOwner s.nextCell (some p) h'.counter_ = some h'.owner_
        rcases List.mem_cons.mp hm' with he | ht
        · obtain ⟨_, h2⟩ := Prod.ext_iff.mp he
          simp only [] at h2
          rw [h2, fupd_self]
        · have hcc : h'.counter_ ≠ s.nextCell := by
            intro hh
            exact inv.hcell k h' ht (by rw [hh, hcellfresh])
          rw [fupd_ne _ _ hcc]
          exact inv.howner k h' ht
      · intro k h' hm'
        show fupd s.pools p (some ⟨pl.refs + 1, []⟩) h'.owner_ ≠ none
        rcases List.mem_cons.mp hm' with he | ht
        · obtain ⟨_, h2⟩ := Prod.ext_iff.mp he
          simp only [] at h2
          rw [h2, fupd_self]
          simp
        · by_cases hqp : h'.owner_ = p
          · rw [hqp, fupd_self]
            simp
          · rw [fupd_ne _ _ hqp]
            exact inv.hpool k h' ht
      · intro c cl' hc
        have hc' : fupd s.cells s.nextCell (some ⟨v, 1⟩) c = some cl' := hc
        show cl'.uses =
          ((s.nextHandle, (⟨p, s.nextCell⟩ : PooledHandle)) :: s.handles).countP
            (fun q => decide (q.2.counter_ = c))
        rw [List.countP_cons]
        by_cases hcc : c = s.nextCell
        · rw [hcc] at hc' ⊢
          rw [fupd_self] at hc'
          obtain rfl : cl' = ⟨v, 1⟩ := by
            injection hc' with he
            exact he.symm
          simp only [decide_eq_true_eq]
          rw [if_pos trivial]
          omega
        · rw [fupd_ne _ _ hcc] at hc'
          have hbase := inv.count c cl' hc'
          simp only [refCount] at hbase
          simp only [decide_eq_true_eq]
          rw [if_neg (fun hh => hcc (hh.symm))]
          omega
      · intro c cl' hc
        have hc' : fupd s.cells s.nextCell (some ⟨v, 1⟩) c = some cl' := hc
        by_cases hcc : c = s.nextCell
        · rw [hcc] at hc'
          rw [fupd_self] at hc'
          obtain rfl : cl' = ⟨v, 1⟩ := by
            injection hc' with he
            exact he.symm
          simp
        · rw [fupd_ne _ _ hcc] at hc'
          exact inv.cell_pos c cl' hc'
      · intro q pl' c hq hc
        have hq' : fupd s.pools p (some ⟨pl.refs + 1, []⟩) q = some pl' := hq
        by_cases hqp : q = p
        · rw [hqp] at hq'
          rw [fupd_self] at hq'
          obtain rfl : pl' = ⟨pl.refs + 1, []⟩ := by
            injection hq' with he
            exact he.symm
          exact absurd hc (by simp)
        · rw [fupd_ne _ _ hqp] at hq'
          obtain ⟨ho, hdead, hlt⟩ := inv.free_own q pl' c hq' hc
          have hcc : c ≠ s.nextCell := by omega
          refine ⟨?_, ?_, ?_⟩
          · show fupd s.allocOwner s.nextCell (some p) c = some q
            rw [fupd_ne _ _ hcc]
            exact ho
          · show fupd s.cells s.nextCell (some ⟨v, 1⟩) c = none
            rw [fupd_ne _ _ hcc]
            exact hdead
          · show c < s.nextCell + 1
            omega
      · intro q pl' hq
        have hq' : fupd s.pools p (some ⟨pl.refs + 1, []⟩) q = some pl' := hq
        by_cases hqp : q = p
        · rw [hqp] at hq'
          rw [fupd_self] at hq'
          obtain rfl : pl' = ⟨pl.refs + 1, []⟩ := by
            injection hq' with he
            exact he.symm
          simp
        · rw [fupd_ne _ _ hqp] at hq'
          exact inv.free_nd q pl' hq'
      · intro q
        show (match fupd s.pools p (some ⟨pl.refs + 1, []⟩) q with
          | some pl => pl.refs | none => 0) =
          ((s.nextHandle, (⟨p, s.nextCell⟩ : PooledHandle)) :: s.handles).countP
            (fun x => decide (x.2.owner_ = q)) + tlCount s q
        rw [List.countP_cons]
        have hbase := inv.refs_eq q
        simp only [poolRefs, ownerCount] at hbase
        by_cases hqp : q = p
        · rw [hqp] at hbase ⊢
          rw [hpl] at hbase
          rw [fupd_self]
          have hbase' : pl.refs =
              s.handles.countP (fun x => decide (x.2.owner_ = p)) + tlCount s p := hbase
          simp only [decide_eq_true_eq]
          rw [if_pos trivial]
          show pl.refs + 1 =
            s.handles.countP (fun x => decide (x.2.owner_ = p)) + 1 + tlCount s p
          omega
        · rw [fupd_ne _ _ hqp]
          simp only [decide_eq_true_eq]
          rw [if_neg (fun hh => hqp (hh.symm))]
          omega
      · intro q pl' hq
        have hq' : fupd s.pools p (some ⟨pl.refs + 1, []⟩) q = some pl' := hq
        by_cases hqp : q = p
        · rw [hqp] at hq'
          rw [fupd_self] at hq'
          obtain rfl : pl' = ⟨pl.refs + 1, []⟩ := by
            injection hq' with he
            exact he.symm
          simp
        · rw [fupd_ne _ _ hqp] at hq'
          exact inv.refs_pos q pl' hq'
    | cons c0 rest =>
      have hmem0 : c0 ∈ pl.freeList := by rw [hfl]; simp
      obtain ⟨hoc0, hdead0, hlt0⟩ := inv.free_own p pl c0 hpl hmem0
      have hrc0 : refCount s c0 = 0 := refCount_zero_of_dead inv hdead0
      simp only [refCount] at hrc0
      have hnd0 : c0 ∉ rest := by
        have := inv.free_nd p pl hpl
        rw [hfl] at this
        exact (List.nodup_cons.mp this).1
      rw [step_construct_existing_reuse v htl hpl hfl]
      refine ⟨?_, ?_, inv.tlkeys, ?_, ?_, ?_, ?_, ?_, ?_, ?_, ?_, ?_, ?_, ?_, ?_⟩
      · show (s.nextHandle :: s.handles.map Prod.fst).Nodup
        exact List.nodup_cons.mpr ⟨hnewh, inv.hkeys⟩
      · intro k h' hm'
        show k < s.nextHandle + 1
        rcases List.mem_cons.mp hm' with he | ht
        · obtain ⟨h1, _⟩ := Prod.ext_iff.mp he
          simp only [] at h1
          omega
        · have := inv.hkeyLt k h' ht
          omega
      · intro c hc
        have hc' : fupd s.cells c0 (some ⟨v, 1⟩) c ≠ none := hc
        show c < s.nextCell
        by_cases hcc : c = c0
        · omega
        · rw [fupd_ne _ _ hcc] at hc'
          exact inv.cellLt c hc'
      · intro c hc
        have hc' : fupd s.allocOwner c0 (some p) c ≠ none := hc
        show c < s.nextCell
        by_cases hcc : c = c0
        · omega
        · rw [fupd_ne _ _ hcc] at hc'
          exact inv.ownLt c hc'
      · intro q hq
        have hq' : fupd s.pools p (some ⟨pl.refs + 1, rest⟩) q ≠ none := hq
        show q < s.nextPool
        by_cases hqp : q = p
        · rw [hqp]
          exact inv.poolLt p (by rw [hpl]; simp)
        · rw [fupd_ne _ _ hqp] at hq'
          exact inv.poolLt q hq'
      · intro k h' hm'
        show fupd s.cells c0 (some ⟨v, 1⟩) h'.counter_ ≠ none
        rcases List.mem_cons.mp hm' with he | ht
        · obtain ⟨_, h2⟩ := Prod.ext_iff.mp he
          simp only [] at h2
          rw [h2, fupd_self]
          simp
        · have hcc : h'.counter_ ≠ c0 := by
            intro hh
            exact inv.hcell k h' ht (by rw [hh, hdead0])
          rw [fupd_ne _ _ hcc]
          exact inv.hcell k h' ht
      · intro k h' hm'
        show fupd s.allocOwner c0 (some p) h'.counter_ = some h'.owner_
        rcases List.mem_cons.mp hm' with he | ht
        · obtain ⟨_, h2⟩ := Prod.ext_iff.mp he
          simp only [] at h2
          rw [h2, fupd_self]
        · have hcc : h'.counter_ ≠ c0 := by
            intro hh
            exact inv.hcell k h' ht (by rw [hh, hdead0])
          rw [fupd_ne _ _ hcc]
          exact inv.howner k h' ht
      · intro k h' hm'
        show fupd s.pools p (some ⟨pl.refs + 1, rest⟩) h'.owner_ ≠ none
        rcases List.mem_cons.mp hm' with he | ht
        · obtain ⟨_, h2⟩ := Prod.ext_iff.mp he
          simp only [] at h2
          rw [h2, fupd_self]
          simp
        · by_cases hqp : h'.owner_ = p
          · rw [hqp, fupd_self]
            simp
          · rw [fupd_ne _ _ hqp]
            exact inv.hpool k h' ht
      · intro c cl' hc
        have hc' : fupd s.cells c0 (some ⟨v, 1⟩) c = some cl' := hc
        show cl'.uses =
          ((s.nextHandle, (⟨p, c0⟩ : PooledHandle)) :: s.handles).countP
            (fun q => decide (q.2.counter_ = c))
        rw [List.countP_cons]
        by_cases hcc : c = c0
        · rw [hcc] at hc' ⊢
          rw [fupd_self] at hc'
          obtain rfl : cl' = ⟨v, 1⟩ := by
            injection hc' with he
            exact he.symm
          simp only [decide_eq_true_eq]
          rw [if_pos trivial]
          omega
        · rw [fupd_ne _ _ hcc] at hc'
          have hbase := inv.count c cl' hc'
          simp only [refCount] at hbase
          simp only [decide_eq_true_eq]
          rw [if_neg (fun hh => hcc (hh.symm))]
          omega
      · intro c cl' hc
        have hc' : fupd s.cells c0 (some ⟨v, 1⟩) c = some cl' := hc
        by_cases hcc : c = c0
        · rw [hcc] at hc'
          rw [fupd_self] at hc'
          obtain rfl : cl' = ⟨v, 1⟩ := by
            injection hc' with he
            exact he.symm
          simp
        · rw [fupd_ne _ _ hcc] at hc'
          exact inv.cell_pos c cl' hc'
      · intro q pl' c hq hc
        have hq' : fupd s.pools p (some ⟨pl.refs + 1, rest⟩) q = some pl' := hq
        by_cases hqp : q = p
        · rw [hqp] at hq' ⊢
          rw [fupd_self] at hq'
          obtain rfl : pl' = ⟨pl.refs + 1, rest⟩ := by
            injection hq' with he
            exact he.symm
          have hct : c ∈ rest := hc
          have hcc : c ≠ c0 := fun hh => hnd0 (hh ▸ hct)
          obtain ⟨ho, hdead, hlt⟩ := inv.free_own p pl c hpl (by rw [hfl]; simp [hct])
          refine ⟨?_, ?_, hlt⟩
          · show fupd s.allocOwner c0 (some p) c = some p
            rw [fupd_ne _ _ hcc]
            exact ho
          · show fupd s.cells c0 (some ⟨v, 1⟩) c = none
            rw [fupd_ne _ _ hcc]
            exact hdead
        · rw [fupd_ne _ _ hqp] at hq'
          obtain ⟨ho, hdead, hlt⟩ := inv.free_own q pl' c hq' hc
          have hcc : c ≠ c0 := by
            intro hh
            rw [hh] at ho
            rw [ho] at hoc0
            injection hoc0 with he
            exact hqp he
          refine ⟨?_, ?_, hlt⟩
          · show fupd s.allocOwner c0 (some p) c = some q
            rw [fupd_ne _ _ hcc]
            exact ho
          · show fupd s.cells c0 (some ⟨v, 1⟩) c = none
            rw [fupd_ne _ _ hcc]
            exact hdead
      · intro q pl' hq
        have hq' : fupd s.pools p (some ⟨pl.refs + 1, rest⟩) q = some pl' := hq
        by_cases hqp : q = p
        · rw [hqp] at hq'
          rw [fupd_self] at hq'
          obtain rfl : pl' = ⟨pl.refs + 1, rest⟩ := by
            injection hq' with he
            exact he.symm
          show rest.Nodup
          have := inv.free_nd p pl hpl
          rw [hfl] at this
          exact (List.nodup_cons.mp this).2
        · rw [fupd_ne _ _ hqp] at hq'
          exact inv.free_nd q pl' hq'
      · intro q
        show (match fupd s.pools p (some ⟨pl.refs + 1, rest⟩) q with
          | some pl => pl.refs | none => 0) =
          ((s.nextHandle, (⟨p, c0⟩ : PooledHandle)) :: s.handles).countP
            (fun x => decide (x.2.owner_ = q)) + tlCount s q
        rw [List.countP_cons]
        have hbase := inv.refs_eq q
        simp only [poolRefs, ownerCount] at hbase
        by_cases hqp : q = p
        · rw [hqp] at hbase ⊢
          rw [hpl] at hbase
          rw [fupd_self]
          have hbase' : pl.refs =
              s.handles.countP (fun x => decide (x.2.owner_ = p)) + tlCount s p := hbase
          simp only [decide_eq_true_eq]
          rw [if_pos trivial]
          show pl.refs + 1 =
            s.handles.countP (fun x => decide (x.2.owner_ = p)) + 1 + tlCount s p
          omega
        · rw [fupd_ne _ _ hqp]
          simp only [decide_eq_true_eq]
          rw [if_neg (fun hh => hqp (hh.symm))]
          omega
      · intro q pl' hq
        have hq' : fupd s.pools p (some ⟨pl.refs + 1, rest⟩) q = some pl' := hq
        by_cases hqp : q = p
        · rw [hqp] at hq'
          rw [fupd_self] at hq'
          obtain rfl : pl' = ⟨pl.refs + 1, rest⟩ := by
            injection hq' with he
            exact he.symm
          simp
        · rw [fupd_ne _ _ hqp] at hq'
          exact inv.refs_pos q pl' hq'

theorem inv_init : Inv init := by
  refine ⟨?_, ?_, ?_, ?_, ?_, ?_, ?_, ?_, ?_, ?_, ?_, ?_, ?_, ?_, ?_⟩ <;>
    simp [init, refCount, ownerCount, tlCount, poolRefs]

theorem inv_step {s : State} (a : Action) (inv : Inv s) : Inv (step s a) := by
  cases a with
  | construct tid v => exact inv_step_construct tid v inv
  | copy hid => exact inv_step_copy hid inv
  | destroy tid hid => exact inv_step_destroy tid hid inv
  | threadExit tid => exact inv_step_threadExit tid inv

theorem inv_run {s : State} (as : List Action) (inv : Inv s) : Inv (run s as) := by
  induction as generalizing s with
  | nil => exact inv
  | cons a t ih => exact ih (inv_step a inv)

theorem inv_reachable {s : State} (hs : Reachable s) : Inv s := by
  obtain ⟨as, rfl⟩ := hs
  exact inv_run as inv_init

theorem reachable_step {s : State} (a : Action) (hs : Reachable s) :
    Reachable (step s a) := by
  obtain ⟨as, rfl⟩ := hs
  exact ⟨as ++ [a], by simp [run, List.foldl_append]⟩

/-! ## Support lemmas for the release-uniqueness argument -/

theorem poolDestroy_handles (s : State) (p c : Nat) :
    (poolDestroy s p c).handles = s.handles := by
  unfold poolDestroy
  cases s.pools p with
  | none => rfl
  | some pl => rfl

theorem dropPoolRef_handles (s : State) (p : Nat) :
    (dropPoolRef s p).handles = s.handles := by
  unfold dropPoolRef
  cases s.pools p with
  | none => rfl
  | some pl =>
    by_cases h0 : pl.refs - 1 = 0 <;> simp [h0]

theorem step_destroy_handles {s : State} {tid hid : Nat} {h : PooledHandle} {cl : Cell}
    (hlk : alookup s.handles hid = some h) (hcl : s.cells h.counter_ = some cl) :
    (step s (.destroy tid hid)).handles = eraseKey s.handles hid := by
  simp only [step, hlk, hcl]
  rw [dropPoolRef_handles]
  by_cases hu : cl.uses = 1
  · rw [if_pos hu]
    show eraseKey (poolDestroy s h.owner_ h.counter_).handles hid = eraseKey s.handles hid
    rw [poolDestroy_handles]
  · rw [if_neg hu]

theorem refIds_nodup {s : State} (inv : Inv s) (c : Nat) : (refIds s c).Nodup :=
  List.Nodup.sublist (List.Sublist.map _ (List.filter_sublist _)) inv.hkeys

theorem refIds_length {s : State} (c : Nat) : (refIds s c).length = refCount s c := by
  simp [refIds, refCount, List.countP_eq_length_filter]

theorem mem_refIds {s : State} {x c : Nat} :
    x ∈ refIds s c ↔ ∃ h : PooledHandle, (x, h) ∈ s.handles ∧ h.counter_ = c := by
  constructor
  · intro hx
    rcases List.mem_map.mp hx with ⟨q, hq, he⟩
    obtain ⟨k, h⟩ := q
    obtain ⟨hmem, hpred⟩ := List.mem_filter.mp hq
    simp only [] at he
    subst he
    exact ⟨h, hmem, by simpa using hpred⟩
  · rintro ⟨h, hmem, hc⟩
    exact List.mem_map.mpr ⟨(x, h), List.mem_filter.mpr ⟨hmem, by simp [hc]⟩, rfl⟩

theorem destroy_all_single_release (l : List (Nat × Nat)) :
    ∀ s : State, Reachable s → ∀ c : Nat,
      (l.map Prod.snd).Nodup →
      (∀ x, x ∈ l.map Prod.snd ↔ x ∈ refIds s c) →
      l ≠ [] →
      releaseCount s (l.map (fun q => Action.destroy q.1 q.2)) c = 1 := by
  induction l with
  | nil =>
    intro s _ c _ _ hne
    exact absurd rfl hne
  | cons hd tl ih =>
    intro s hreach c hnd hmem _
    obtain ⟨t1, h1⟩ := hd
    have inv := inv_reachable hreach
    have hh1 : h1 ∈ refIds s c := (hmem h1).mp (by simp)
    obtain ⟨h, hmemh, hcc⟩ := mem_refIds.mp hh1
    have hlk : alookup s.handles h1 = some h := mem_alookup inv.hkeys hmemh
    obtain ⟨cl, hcl⟩ : ∃ cl, s.cells h.counter_ = some cl := by
      cases hc : s.cells h.counter_ with
      | none => exact absurd hc (inv.hcell h1 h hmemh)
      | some cl => exact ⟨cl, rfl⟩
    have hcl' : s.cells c = some cl := by rw [← hcc]; exact hcl
    have hcnt : cl.uses = refCount s c := by
      have := inv.count h.counter_ cl hcl
      rw [hcc] at this
      exact this
    have hlen : refCount s c = tl.length + 1 := by
      have hperm : ((t1, h1) :: tl).map Prod.snd |>.Perm (refIds s c) :=
        (List.perm_ext_iff_of_nodup hnd (refIds_nodup inv c)).mpr hmem
      have := hperm.length_eq
      rw [refIds_length] at this
      simpa using this.symm
    have hhandles : (step s (.destroy t1 h1)).handles = eraseKey s.handles h1 :=
      step_destroy_handles hlk hcl
    cases tl with
    | nil =>
      have hu : cl.uses = 1 := by
        simp [hcnt, hlen]
      show (if releasesC s (.destroy t1 h1) c then 1 else 0) +
        releaseCount (step s (.destroy t1 h1)) [] c = 1
      rw [if_pos (by simp [releasesC, hlk, hcc, hcl', hu])]
      rfl
    | cons hd2 tl2 =>
      have hu : cl.uses ≠ 1 := by
        rw [hcnt, hlen]
        simp
      show (if releasesC s (.destroy t1 h1) c then 1 else 0) +
        releaseCount (step s (.destroy t1 h1))
          ((hd2 :: tl2).map (fun q => Action.destroy q.1 q.2)) c = 1
      rw [if_neg (by simp [releasesC, hlk, hcc, hcl', hu])]
      have hnd2 : (h1 :: (hd2 :: tl2).map Prod.snd).Nodup := by
        rw [List.map_cons] at hnd
        exact hnd
      have hnotin : h1 ∉ (hd2 :: tl2).map Prod.snd := (List.nodup_cons.mp hnd2).1
      refine Nat.zero_add _ ▸ ih (step s (.destroy t1 h1)) (reachable_step _ hreach) c
        ((List.nodup_cons.mp hnd2).2) ?_ (by simp)
      intro x
      constructor
      · intro hx
        have hxcons : x ∈ ((t1, h1) :: hd2 :: tl2).map Prod.snd := by
          simp at hx ⊢
          tauto
        have hxr : x ∈ refIds s c := (hmem x).mp hxcons
        obtain ⟨hx2, hmem2, hc2⟩ := mem_refIds.mp hxr
        apply mem_refIds.mpr
        refine ⟨hx2, ?_, hc2⟩
        rw [hhandles]
        apply mem_eraseKey.mpr
        refine ⟨hmem2, ?_⟩
        intro hh
        exact hnotin (hh ▸ hx)
      · intro hx
        obtain ⟨hx2, hmem2, hc2⟩ := mem_refIds.mp hx
        rw [hhandles] at hmem2
        obtain ⟨hmem3, hne3⟩ := mem_eraseKey.mp hmem2
        have hxr : x ∈ refIds s c := mem_refIds.mpr ⟨hx2, hmem3, hc2⟩
        have hxcons := (hmem x).mpr hxr
        simp at hxcons ⊢
        rcases hxcons with he | ht
        · exact absurd he hne3
        · exact ht

/-! ## Support lemmas for the thread-local pool table -/

theorem runPT_append (pt : PoolTable) (c1 c2 : List (Nat × Nat)) :
    runPT pt (c1 ++ c2) = runPT (runPT pt c1) c2 := by
  simp [runPT, List.foldl_append]

theorem invPT_aux (calls : List (Nat × Nat)) :
    ∀ pt : PoolTable,
      ((∀ k v, (k, v) ∈ pt.table → v < pt.next) ∧
       (∀ k1 k2 v, (k1, v) ∈ pt.table → (k2, v) ∈ pt.table → k1 = k2)) →
      ((∀ k v, (k, v) ∈ (runPT pt calls).table → v < (runPT pt calls).next) ∧
       (∀ k1 k2 v, (k1, v) ∈ (runPT pt calls).table → (k2, v) ∈ (runPT pt calls).table →
          k1 = k2)) := by
  induction calls with
  | nil => intro pt hp; exact hp
  | cons call rest ih =>
    intro pt hp
    show ((∀ k v, (k, v) ∈ (runPT (getPoolT pt call.1 call.2).2 rest).table →
        v < (runPT (getPoolT pt call.1 call.2).2 rest).next) ∧ _)
    apply ih
    unfold getPoolT
    cases htl : alookup pt.table (call.1, call.2) with
    | some p => exact hp
    | none =>
      constructor
      · intro k v hm
        rcases List.mem_cons.mp hm with he | ht
        · obtain ⟨_, h2⟩ := Prod.ext_iff.mp he
          simp only [] at h2
          show v < pt.next + 1
          omega
        · have := hp.1 k v ht
          show v < pt.next + 1
          omega
      · intro k1 k2 v hm1 hm2
        rcases List.mem_cons.mp hm1 with he1 | ht1 <;>
          rcases List.mem_cons.mp hm2 with he2 | ht2
        · obtain ⟨ha1, _⟩ := Prod.ext_iff.mp he1
          obtain ⟨ha2, _⟩ := Prod.ext_iff.mp he2
          simp only [] at ha1 ha2
          rw [ha1, ha2]
        · obtain ⟨_, hb1⟩ := Prod.ext_iff.mp he1
          simp only [] at hb1
          subst hb1
          have := hp.1 k2 pt.next ht2
          omega
        · obtain ⟨_, hb2⟩ := Prod.ext_iff.mp he2
          simp only [] at hb2
          subst hb2
          have := hp.1 k1 pt.next ht1
          omega
        · exact hp.2 k1 k2 v ht1 ht2

theorem invPT_reachable {pt : PoolTable} (hpt : ReachablePT pt) :
    (∀ k v, (k, v) ∈ pt.table → v < pt.next) ∧
    (∀ k1 k2 v, (k1, v) ∈ pt.table → (k2, v) ∈ pt.table → k1 = k2) := by
  obtain ⟨calls, rfl⟩ := hpt
  exact invPT_aux calls initPT ⟨by simp [initPT], by simp [initPT]⟩

/-! ## Frame lemmas: `allocOwner` is only written by allocation -/

theorem bumpPoolRefs_allocOwner (s : State) (p : Nat) :
    (bumpPoolRefs s p).allocOwner = s.allocOwner := by
  unfold bumpPoolRefs
  cases s.pools p with
  | none => rfl
  | some pl => rfl

theorem poolDestroy_allocOwner (s : State) (p c : Nat) :
    (poolDestroy s p c).allocOwner = s.allocOwner := by
  unfold poolDestroy
  cases s.pools p with
  | none => rfl
  | some pl => rfl

theorem dropPoolRef_allocOwner (s : State) (p : Nat) :
    (dropPoolRef s p).allocOwner = s.allocOwner := by
  unfold dropPoolRef
  cases s.pools p with
  | none => rfl
  | some pl =>
    by_cases h0 : pl.refs - 1 = 0 <;> simp [h0]

theorem step_copy_allocOwner (s : State) (hid : Nat) :
    (step s (.copy hid)).allocOwner = s.allocOwner := by
  cases hlk : alookup s.handles hid with
  | none => simp only [step, hlk]
  | some h =>
    simp only [step, hlk]
    rw [bumpPoolRefs_allocOwner]

theorem step_destroy_allocOwner (s : State) (tid hid : Nat) :
    (step s (.destroy tid hid)).allocOwner = s.allocOwner := by
  cases hlk : alookup s.handles hid with
  | none => simp only [step, hlk]
  | some h =>
    cases hcl : s.cells h.counter_ with
    | none => simp only [step, hlk, hcl]
    | some cl =>
      simp only [step, hlk, hcl]
      rw [dropPoolRef_allocOwner]
      by_cases hu : cl.uses = 1
      · rw [if_pos hu]
        rw [poolDestroy_allocOwner]
      · rw [if_neg hu]

theorem step_threadExit_allocOwner (s : State) (tid : Nat) :
    (step s (.threadExit tid)).allocOwner = s.allocOwner := by
  cases htl : alookup s.tlPools tid with
  | none => simp only [step, htl]
  | some p =>
    simp only [step, htl]
    rw [dropPoolRef_allocOwner]

theorem alookup_bump {l : List (Nat × Nat)} {k : Nat} :
    alookup (l.map (fun q => if q.1 = k then (q.1, q.2 + 1) else q)) k =
      (alookup l k).map (fun n => n + 1) := by
  induction l with
  | nil => rfl
  | cons a t ih =>
    obtain ⟨ka, va⟩ := a
    by_cases hk : ka = k
    · subst hk
      simp only [List.map_cons]
      simp [alookup]
    · simp only [List.map_cons]
      rw [if_neg hk]
      simp [alookup, hk, ih]

theorem dropPoolRef_pools_ne (s : State) {p q : Nat} (h : q ≠ p) :
    (dropPoolRef s p).pools q = s.pools q := by
  unfold dropPoolRef
  cases s.pools p with
  | none => rfl
  | some pl =>
    by_cases h0 : pl.refs - 1 = 0 <;> simp [h0, fupd_ne _ _ h]

theorem poolDestroy_pools_ne (s : State) {p q : Nat} (c : Nat) (h : q ≠ p) :
    (poolDestroy s p c).pools q = s.pools q := by
  unfold poolDestroy
  cases s.pools p with
  | none => rfl
  | some pl => simp [fupd_ne _ _ h]

theorem step_destroy_pools_ne (s : State) (tid hid : Nat) {h : PooledHandle}
    (hlk : alookup s.handles hid = some h) {p : Nat} (hp : p ≠ h.owner_) :
    (step s (.destroy tid hid)).pools p = s.pools p := by
  simp only [step, hlk]
  cases hcl : s.cells h.counter_ with
  | none => rfl
  | some cl =>
    rw [dropPoolRef_pools_ne _ hp]
    by_cases hu : cl.uses = 1
    · rw [if_pos hu]
      rw [poolDestroy_pools_ne _ _ hp]
    · rw [if_neg hu]

/-! ## The claims -/

/-- C1: for every payload type `T`, the facade's compile-time flag
`Small<T>::inlined` is true exactly when `T` is trivially copyable with
`sizeof(T)` at most 64 bytes, or `T` is a `std::shared_ptr` instantiation
regardless of size; every other `T` selects the pooled representation
(`inlined = false`), and every `T` resolves to exactly one of the two
branches. -/
theorem small_inlined_classifier (T : TypeDesc) :
    (Small_inlined T = true ↔
      ((T.trivially_copyable = true ∧ T.size ≤ MAX_SMALL_SIZE) ∨ T.isSharedPtr = true)) ∧
    (Small_inlined T = false ↔
      ¬((T.trivially_copyable = true ∧ T.size ≤ MAX_SMALL_SIZE) ∨ T.isSharedPtr = true)) ∧
    ¬(Small_inlined T = true ∧ Small_inlined T = false) := by
  unfold Small_inlined inlined_object_v
  by_cases h1 : T.isSharedPtr = true <;> by_cases h2 : T.trivially_copyable = true <;>
    by_cases h3 : T.size ≤ MAX_SMALL_SIZE <;> simp [h1, h2, h3]

/-- C7: scenario — construct a pooled handle `h1` holding payload 42 on
thread 0, copy it to `h2`, destroy `h1`: reading through `h2` still yields the
original payload (it does not fail), the shared cell is still live with use
count 1; destroying `h2` then releases the cell back to its pool: the cell is
destroyed and its slot is on the owning pool's free list. -/
theorem pooled_copy_scenario :
    readData (run init [Action.construct 0 42, Action.copy 0, Action.destroy 0 0]) 1 =
      some 42 ∧
    (run init [Action.construct 0 42, Action.copy 0, Action.destroy 0 0]).cells 0 =
      some ⟨42, 1⟩ ∧
    (run init [Action.construct 0 42, Action.copy 0, Action.destroy 0 0,
      Action.destroy 0 1]).cells 0 = none ∧
    poolFree (run init [Action.construct 0 42, Action.copy 0, Action.destroy 0 0,
      Action.destroy 0 1]) 0 = [0] := by
  refine ⟨?_, ?_, ?_, ?_⟩ <;> decide

/-- C8: when the backing allocator fails during pooled construction, the
failure propagates unchanged through `ParallelPool::construct` and out of the
`SmallImpl` constructor as a fatal allocation error: no handle is produced
(the result is `Except.error`, never `Except.ok`), so the calling computation
does not proceed past the failed allocation; on success a handle to a fresh
cell with use count 1 is produced. -/
theorem alloc_failure_is_fatal :
    (∀ pool slot v, mkPooledE false pool slot v = Except.error AllocError.badAlloc) ∧
    (∀ pool slot v h, mkPooledE false pool slot v ≠ Except.ok h) ∧
    (∀ slot v, constructE false slot v = Except.error AllocError.badAlloc) ∧
    (∀ pool slot v, mkPooledE true pool slot v = Except.ok ⟨pool, slot⟩ ∧
      constructE true slot v = Except.ok (slot, ⟨v, 1⟩)) := by
  refine ⟨fun _ _ _ => rfl, ?_, fun _ _ => rfl, fun _ _ _ => ⟨rfl, rfl⟩⟩
  intro pool slot v h hh
  simp [mkPooledE, constructE, backingAlloc, Except.map] at hh

/-- C10: inline reads return the payload by value — `data()` and the
conversion operator copy-construct a fresh object on every call and never
expose the stored payload by reference: the returned object has a fresh
identity distinct from the stored one, carries an equal value, leaves the
stored payload in place, and invokes the payload's copy constructor exactly
once per call; for a `std::shared_ptr` payload every read copies the
`shared_ptr`, sharing the referent and incrementing its control block's use
count by one. -/
theorem inline_read_by_value (sm : SmallInl) (hp : Heap) (v : Nat)
    (hv : alookup hp.objs sm.data_ = some v) (hwf : sm.data_ < hp.nextId) :
    ((SmallInl.data sm hp).1 ≠ sm.data_ ∧
     (SmallInl.data sm hp).1 = hp.nextId ∧
     alookup (SmallInl.data sm hp).2.objs (SmallInl.data sm hp).1 = some v ∧
     alookup (SmallInl.data sm hp).2.objs sm.data_ = some v ∧
     (SmallInl.data sm hp).2.copies = hp.copies + 1 ∧
     SmallInl.operatorT sm hp = SmallInl.data sm hp) ∧
    (∀ (sp : SmallInlSP) (w : SPWorld) (n : Nat),
       alookup w.counts sp.data_.ctrl = some n →
       (SmallInlSP.data sp w).1.ctrl = sp.data_.ctrl ∧
       alookup (SmallInlSP.data sp w).2.counts sp.data_.ctrl = some (n + 1)) := by
  constructor
  · have hne : hp.nextId ≠ sm.data_ := by omega
    refine ⟨?_, ?_, ?_, ?_, ?_, rfl⟩
    · show (copyPayload hp sm.data_).1 ≠ sm.data_
      simp [copyPayload, hv]
      omega
    · show (copyPayload hp sm.data_).1 = hp.nextId
      simp [copyPayload, hv]
    · show alookup (copyPayload hp sm.data_).2.objs (copyPayload hp sm.data_).1 = some v
      simp [copyPayload, hv, alookup]
    · show alookup (copyPayload hp sm.data_).2.objs sm.data_ = some v
      simp [copyPayload, hv, alookup, hne]
    · show (copyPayload hp sm.data_).2.copies = hp.copies + 1
      simp [copyPayload, hv]
  · intro sp w n hn
    refine ⟨rfl, ?_⟩
    show alookup (w.counts.map
      (fun q => if q.1 = sp.data_.ctrl then (q.1, q.2 + 1) else q)) sp.data_.ctrl =
      some (n + 1)
    rw [alookup_bump, hn]
    rfl

/-- Witness for C10 at a concrete handle and heap. -/
theorem inline_read_by_value_witness :
    (alookup (Heap.mk [(0, 9)] 0 1).objs (SmallInl.mk 0).data_ = some 9 ∧
      (SmallInl.mk 0).data_ < (Heap.mk [(0, 9)] 0 1).nextId) ∧
    (((SmallInl.data (SmallInl.mk 0) (Heap.mk [(0, 9)] 0 1)).1 ≠ (SmallInl.mk 0).data_ ∧
      (SmallInl.data (SmallInl.mk 0) (Heap.mk [(0, 9)] 0 1)).1 =
        (Heap.mk [(0, 9)] 0 1).nextId ∧
      alookup (SmallInl.data (SmallInl.mk 0) (Heap.mk [(0, 9)] 0 1)).2.objs
        (SmallInl.data (SmallInl.mk 0) (Heap.mk [(0, 9)] 0 1)).1 = some 9 ∧
      alookup (SmallInl.data (SmallInl.mk 0) (Heap.mk [(0, 9)] 0 1)).2.objs
        (SmallInl.mk 0).data_ = some 9 ∧
      (SmallInl.data (SmallInl.mk 0) (Heap.mk [(0, 9)] 0 1)).2.copies =
        (Heap.mk [(0, 9)] 0 1).copies + 1 ∧
      SmallInl.operatorT (SmallInl.mk 0) (Heap.mk [(0, 9)] 0 1) =
        SmallInl.data (SmallInl.mk 0) (Heap.mk [(0, 9)] 0 1)) ∧
    (∀ (sp : SmallInlSP) (w : SPWorld) (n : Nat),
       alookup w.counts sp.data_.ctrl = some n →
       (SmallInlSP.data sp w).1.ctrl = sp.data_.ctrl ∧
       alookup (SmallInlSP.data sp w).2.counts sp.data_.ctrl = some (n + 1))) :=
  ⟨⟨by decide, by decide⟩,
    inline_read_by_value (SmallInl.mk 0) (Heap.mk [(0, 9)] 0 1) 9 (by decide) (by decide)⟩

/-- C2: a reference-counted cell starts with use count 1 at construction; in
every reachable state every live cell's use count equals the number of live
handles referencing it and is positive (so the count never reaches zero — and
the cell is never released — while a live handle still references it, and no
live handle ever points at a released cell); and destroying a handle releases
its cell exactly when that handle is the last one referencing it. -/
theorem refcount_ground_truth (s : State) (hs : Reachable s) :
    (∀ k h, (k, h) ∈ s.handles → s.cells h.counter_ ≠ none) ∧
    (∀ c cl, s.cells c = some cl → cl.uses = refCount s c ∧ 0 < cl.uses) ∧
    (∀ tid v, ∃ hid h, alookup (step s (.construct tid v)).handles hid = some h ∧
      (step s (.construct tid v)).cells h.counter_ = some ⟨v, 1⟩) ∧
    (∀ tid hid h cl, alookup s.handles hid = some h → s.cells h.counter_ = some cl →
      (releasesC s (.destroy tid hid) h.counter_ = true ↔ refCount s h.counter_ = 1)) := by
  have inv := inv_reachable hs
  refine ⟨inv.hcell, ?_, ?_, ?_⟩
  · intro c cl hc
    exact ⟨inv.count c cl hc, inv.cell_pos c cl hc⟩
  · intro tid v
    cases htl : alookup s.tlPools tid with
    | none =>
      refine ⟨s.nextHandle, ⟨s.nextPool, s.nextCell⟩, ?_, ?_⟩
      · rw [step_construct_new v htl]
        show alookup ((s.nextHandle, (⟨s.nextPool, s.nextCell⟩ : PooledHandle)) :: s.handles)
          s.nextHandle = some ⟨s.nextPool, s.nextCell⟩
        simp [alookup]
      · rw [step_construct_new v htl]
        show fupd s.cells s.nextCell (some ⟨v, 1⟩) s.nextCell = some ⟨v, 1⟩
        rw [fupd_self]
    | some p =>
      have htcpos : 0 < tlCount s p := tlCount_pos_of_mem (alookup_mem htl)
      have hrefsp := inv.refs_eq p
      obtain ⟨pl, hpl⟩ : ∃ pl, s.pools p = some pl := by
        cases hp : s.pools p with
        | none =>
          simp only [poolRefs, hp] at hrefsp
          omega
        | some pl => exact ⟨pl, rfl⟩
      cases hfl : pl.freeList with
      | nil =>
        refine ⟨s.nextHandle, ⟨p, s.nextCell⟩, ?_, ?_⟩
        · rw [step_construct_existing_fresh v htl hpl hfl]
          show alookup ((s.nextHandle, (⟨p, s.nextCell⟩ : PooledHandle)) :: s.handles)
            s.nextHandle = some ⟨p, s.nextCell⟩
          simp [alookup]
        · rw [step_construct_existing_fresh v htl hpl hfl]
          show fupd s.cells s.nextCell (some ⟨v, 1⟩) s.nextCell = some ⟨v, 1⟩
          rw [fupd_self]
      | cons c0 rest =>
        refine ⟨s.nextHandle, ⟨p, c0⟩, ?_, ?_⟩
        · rw [step_construct_existing_reuse v htl hpl hfl]
          show alookup ((s.nextHandle, (⟨p, c0⟩ : PooledHandle)) :: s.handles)
            s.nextHandle = some ⟨p, c0⟩
          simp [alookup]
        · rw [step_construct_existing_reuse v htl hpl hfl]
          show fupd s.cells c0 (some ⟨v, 1⟩) c0 = some ⟨v, 1⟩
          rw [fupd_self]
  · intro tid hid h cl hlk hcl
    have hcnt := inv.count h.counter_ cl hcl
    constructor
    · intro hr
      simp [releasesC, hlk, hcl] at hr
      omega
    · intro hr
      simp [releasesC, hlk, hcl]
      omega

/-- Witness for C2 at a concrete reachable state with one live cell. -/
theorem refcount_ground_truth_witness :
    Reachable (run init [Action.construct 0 5]) ∧
    ((∀ k h, (k, h) ∈ (run init [Action.construct 0 5]).handles →
        (run init [Action.construct 0 5]).cells h.counter_ ≠ none) ∧
     (∀ c cl, (run init [Action.construct 0 5]).cells c = some cl →
        cl.uses = refCount (run init [Action.construct 0 5]) c ∧ 0 < cl.uses) ∧
     (∀ tid v, ∃ hid h,
        alookup (step (run init [Action.construct 0 5]) (.construct tid v)).handles hid =
          some h ∧
        (step (run init [Action.construct 0 5]) (.construct tid v)).cells h.counter_ =
          some ⟨v, 1⟩) ∧
     (∀ tid hid h cl,
        alookup (run init [Action.construct 0 5]).handles hid = some h →
        (run init [Action.construct 0 5]).cells h.counter_ = some cl →
        (releasesC (run init [Action.construct 0 5]) (.destroy tid hid) h.counter_ = true ↔
          refCount (run init [Action.construct 0 5]) h.counter_ = 1))) :=
  ⟨⟨[Action.construct 0 5], rfl⟩, refcount_ground_truth _ ⟨[Action.construct 0 5], rfl⟩⟩

/-- C3: copy-constructing a pooled handle copies the pool reference and the
cell reference and atomically increments the source cell's use count by
exactly one: the new handle is identical to the source (same `owner_`, same
`counter_`), the source handle is untouched, the shared cell's count becomes
`uses + 1`, no other cell changes, no new cell is allocated (the payload is
not duplicated), the pool gains one `shared_ptr` owner, and the reads of
source and copy denote the same payload. -/
theorem copy_shares_cell_and_increments (s : State) (hid : Nat) (h : PooledHandle)
    (hs : Reachable s) (hlk : alookup s.handles hid = some h) :
    ∃ cl, s.cells h.counter_ = some cl ∧
      alookup (step s (.copy hid)).handles s.nextHandle = some h ∧
      alookup (step s (.copy hid)).handles hid = some h ∧
      (step s (.copy hid)).cells h.counter_ = some { cl with uses := cl.uses + 1 } ∧
      (∀ c, c ≠ h.counter_ → (step s (.copy hid)).cells c = s.cells c) ∧
      (step s (.copy hid)).nextCell = s.nextCell ∧
      poolRefs (step s (.copy hid)) h.owner_ = poolRefs s h.owner_ + 1 ∧
      readData (step s (.copy hid)) s.nextHandle = some cl.data ∧
      readData (step s (.copy hid)) hid = some cl.data := by
  have inv := inv_reachable hs
  have hm := alookup_mem hlk
  obtain ⟨cl, hcl⟩ : ∃ cl, s.cells h.counter_ = some cl := by
    cases hc : s.cells h.counter_ with
    | none => exact absurd hc (inv.hcell hid h hm)
    | some cl => exact ⟨cl, rfl⟩
  obtain ⟨pl, hpl⟩ : ∃ pl, s.pools h.owner_ = some pl := by
    cases hp : s.pools h.owner_ with
    | none => exact absurd hp (inv.hpool hid h hm)
    | some pl => exact ⟨pl, rfl⟩
  have hne : s.nextHandle ≠ hid := by
    have := inv.hkeyLt hid h hm
    omega
  rw [step_copy_eq hlk hpl hcl]
  refine ⟨cl, hcl, ?_, ?_, ?_, ?_, rfl, ?_, ?_, ?_⟩
  · show alookup ((s.nextHandle, h) :: s.handles) s.nextHandle = some h
    simp [alookup]
  · show alookup ((s.nextHandle, h) :: s.handles) hid = some h
    simp [alookup, hne, hlk]
  · show fupd s.cells h.counter_ (some { cl with uses := cl.uses + 1 }) h.counter_ = some _
    rw [fupd_self]
  · intro c hc
    show fupd s.cells h.counter_ (some { cl with uses := cl.uses + 1 }) c = s.cells c
    rw [fupd_ne _ _ hc]
  · simp [poolRefs, hpl]
  · simp [readData, alookup, hne, hlk]
  · simp [readData, alookup, hne, hlk]

/-- Witness for C3 at a concrete reachable state and handle. -/
theorem copy_shares_cell_and_increments_witness :
    Reachable (run init [Action.construct 0 7]) ∧
    alookup (run init [Action.construct 0 7]).handles 0 = some ⟨0, 0⟩ ∧
    (∃ cl, (run init [Action.construct 0 7]).cells (PooledHandle.mk 0 0).counter_ = some cl ∧
      alookup (step (run init [Action.construct 0 7]) (.copy 0)).handles
        (run init [Action.construct 0 7]).nextHandle = some ⟨0, 0⟩ ∧
      alookup (step (run init [Action.construct 0 7]) (.copy 0)).handles 0 = some ⟨0, 0⟩ ∧
      (step (run init [Action.construct 0 7]) (.copy 0)).cells
        (PooledHandle.mk 0 0).counter_ = some { cl with uses := cl.uses + 1 } ∧
      (∀ c, c ≠ (PooledHandle.mk 0 0).counter_ →
        (step (run init [Action.construct 0 7]) (.copy 0)).cells c =
          (run init [Action.construct 0 7]).cells c) ∧
      (step (run init [Action.construct 0 7]) (.copy 0)).nextCell =
        (run init [Action.construct 0 7]).nextCell ∧
      poolRefs (step (run init [Action.construct 0 7]) (.copy 0))
          (PooledHandle.mk 0 0).owner_ =
        poolRefs (run init [Action.construct 0 7]) (PooledHandle.mk 0 0).owner_ + 1 ∧
      readData (step (run init [Action.construct 0 7]) (.copy 0))
        (run init [Action.construct 0 7]).nextHandle = some cl.data ∧
      readData (step (run init [Action.construct 0 7]) (.copy 0)) 0 = some cl.data) :=
  ⟨⟨[Action.construct 0 7], rfl⟩, by decide,
    copy_shares_cell_and_increments _ 0 ⟨0, 0⟩ ⟨[Action.construct 0 7], rfl⟩ (by decide)⟩

/-- C4: destroying a pooled handle decrements the cell's use count by one and
releases the cell to its owning pool if and only if the post-decrement value
is zero: the handle disappears; when the count was 1 the cell's destructor
runs (the cell is gone) and its slot is pushed on the owning pool's free list
under the pool's mutex — unless this handle also held the pool's last counted
reference, in which case the whole pool object is deallocated with it; when
the count was above 1 only the decrement happens, the count stays positive,
and no free list of any pool changes: release is never invoked while the use
count is still above zero. -/
theorem destroy_decrements_and_releases (s : State) (tid hid : Nat) (h : PooledHandle)
    (cl : Cell) (hs : Reachable s)
    (hlk : alookup s.handles hid = some h) (hcl : s.cells h.counter_ = some cl) :
    alookup (step s (.destroy tid hid)).handles hid = none ∧
    (releasesC s (.destroy tid hid) h.counter_ = true ↔ cl.uses = 1) ∧
    (cl.uses = 1 →
      (step s (.destroy tid hid)).cells h.counter_ = none ∧
      (poolFree (step s (.destroy tid hid)) h.owner_ = h.counter_ :: poolFree s h.owner_ ∨
        (step s (.destroy tid hid)).pools h.owner_ = none)) ∧
    (cl.uses ≠ 1 →
      (step s (.destroy tid hid)).cells h.counter_ = some { cl with uses := cl.uses - 1 } ∧
      0 < cl.uses - 1 ∧
      (∀ p, poolFree (step s (.destroy tid hid)) p = poolFree s p)) := by
  have inv := inv_reachable hs
  have hm := alookup_mem hlk
  obtain ⟨pl, hpl⟩ : ∃ pl, s.pools h.owner_ = some pl := by
    cases hp : s.pools h.owner_ with
    | none => exact absurd hp (inv.hpool hid h hm)
    | some pl => exact ⟨pl, rfl⟩
  refine ⟨?_, ?_, ?_, ?_⟩
  · rw [step_destroy_handles hlk hcl]
    exact alookup_eraseKey_self s.handles hid
  · constructor
    · intro hr
      simp [releasesC, hlk, hcl] at hr
      exact hr
    · intro hr
      simp [releasesC, hlk, hcl, hr]
  · intro hu
    by_cases hrefs0 : pl.refs - 1 = 0
    · rw [step_destroy_release_dead hlk hcl hu hpl hrefs0]
      refine ⟨?_, Or.inr ?_⟩
      · show fupd s.cells h.counter_ none h.counter_ = none
        rw [fupd_self]
      · show fupd s.pools h.owner_ none h.owner_ = none
        rw [fupd_self]
    · rw [step_destroy_release_live hlk hcl hu hpl hrefs0]
      refine ⟨?_, Or.inl ?_⟩
      · show fupd s.cells h.counter_ none h.counter_ = none
        rw [fupd_self]
      · simp [poolFree, hpl]
  · intro hu
    have hpos : 0 < cl.uses := inv.cell_pos _ _ hcl
    have hcnt := inv.count h.counter_ cl hcl
    simp only [refCount] at hcnt
    have himp : ∀ q ∈ s.handles, (fun q => decide (q.2.counter_ = h.counter_)) q = true →
        (fun q => decide (q.2.owner_ = h.owner_)) q = true := by
      intro q hq hcq
      simp only [decide_eq_true_eq] at hcq ⊢
      have h1 := inv.howner q.1 q.2 (by simpa using hq)
      have h2 := inv.howner hid h hm
      rw [hcq] at h1
      rw [h1] at h2
      simpa using h2
    have hocge := List.countP_mono_left himp
    have hrefs := inv.refs_eq h.owner_
    simp only [ownerCount] at hrefs
    have hprefs : poolRefs s h.owner_ = pl.refs := by simp [poolRefs, hpl]
    have hrefs0 : pl.refs - 1 ≠ 0 := by omega
    rw [step_destroy_keep hlk hcl hu hpl hrefs0]
    refine ⟨?_, by omega, ?_⟩
    · show fupd s.cells h.counter_ (some { cl with uses := cl.uses - 1 }) h.counter_ = some _
      rw [fupd_self]
    · intro p
      by_cases hqp : p = h.owner_
      · rw [hqp]
        simp [poolFree, hpl]
      · simp [poolFree, fupd_ne _ _ hqp]

/-- Witness for C4 at a concrete reachable state with a shared cell. -/
theorem destroy_decrements_and_releases_witness :
    Reachable (run init [Action.construct 0 3, Action.copy 0]) ∧
    alookup (run init [Action.construct 0 3, Action.copy 0]).handles 0 = some ⟨0, 0⟩ ∧
    (run init [Action.construct 0 3, Action.copy 0]).cells
      (PooledHandle.mk 0 0).counter_ = some ⟨3, 2⟩ ∧
    (alookup (step (run init [Action.construct 0 3, Action.copy 0])
        (.destroy 1 0)).handles 0 = none ∧
     (releasesC (run init [Action.construct 0 3, Action.copy 0]) (.destroy 1 0)
        (PooledHandle.mk 0 0).counter_ = true ↔ (Cell.mk 3 2).uses = 1) ∧
     ((Cell.mk 3 2).uses = 1 →
       (step (run init [Action.construct 0 3, Action.copy 0]) (.destroy 1 0)).cells
          (PooledHandle.mk 0 0).counter_ = none ∧
       (poolFree (step (run init [Action.construct 0 3, Action.copy 0]) (.destroy 1 0))
            (PooledHandle.mk 0 0).owner_ =
          (PooledHandle.mk 0 0).counter_ ::
            poolFree (run init [Action.construct 0 3, Action.copy 0])
              (PooledHandle.mk 0 0).owner_ ∨
         (step (run init [Action.construct 0 3, Action.copy 0]) (.destroy 1 0)).pools
            (PooledHandle.mk 0 0).owner_ = none)) ∧
     ((Cell.mk 3 2).uses ≠ 1 →
       (step (run init [Action.construct 0 3, Action.copy 0]) (.destroy 1 0)).cells
          (PooledHandle.mk 0 0).counter_ =
            some { Cell.mk 3 2 with uses := (Cell.mk 3 2).uses - 1 } ∧
       0 < (Cell.mk 3 2).uses - 1 ∧
       (∀ p, poolFree (step (run init [Action.construct 0 3, Action.copy 0])
          (.destroy 1 0)) p =
            poolFree (run init [Action.construct 0 3, Action.copy 0]) p))) :=
  ⟨⟨[Action.construct 0 3, Action.copy 0], rfl⟩, by decide, by decide,
    destroy_decrements_and_releases _ 1 0 ⟨0, 0⟩ ⟨3, 2⟩
      ⟨[Action.construct 0 3, Action.copy 0], rfl⟩ (by decide) (by decide)⟩

/-- C5: a cell's owning pool is fixed at allocation time and never changes
(the allocation record of every cell id is stable under every step); every
live handle records that pool in `owner_` and holds a counted reference that
keeps the pool object alive in every reachable state — including states in
which the creating thread has already exited; and destruction routes the
release through the handle's own `owner_` reference: the destroy step is
completely independent of which thread performs it, and it never touches any
pool other than the one recorded on the handle. -/
theorem owner_pool_fixed_and_kept_alive (s : State) (hs : Reachable s) :
    (∀ k h, (k, h) ∈ s.handles →
      s.allocOwner h.counter_ = some h.owner_ ∧ s.pools h.owner_ ≠ none) ∧
    (∀ a c p, s.allocOwner c = some p → (step s a).allocOwner c = some p) ∧
    (∀ tid tid' hid, step s (.destroy tid hid) = step s (.destroy tid' hid)) ∧
    (∀ tid hid h, alookup s.handles hid = some h →
      ∀ p, p ≠ h.owner_ → poolFree (step s (.destroy tid hid)) p = poolFree s p) := by
  have inv := inv_reachable hs
  refine ⟨fun k h hm => ⟨inv.howner k h hm, inv.hpool k h hm⟩, ?_, fun _ _ _ => rfl, ?_⟩
  · intro a c p hap
    cases a with
    | copy hid =>
      rw [step_copy_allocOwner]
      exact hap
    | destroy tid hid =>
      rw [step_destroy_allocOwner]
      exact hap
    | threadExit tid =>
      rw [step_threadExit_allocOwner]
      exact hap
    | construct tid v =>
      have hcc0 : c ≠ s.nextCell := by
        intro hh
        rw [hh] at hap
        have := inv.ownLt s.nextCell (by rw [hap]; simp)
        omega
      cases htl : alookup s.tlPools tid with
      | none =>
        rw [step_construct_new v htl]
        show fupd s.allocOwner s.nextCell (some s.nextPool) c = some p
        rw [fupd_ne _ _ hcc0]
        exact hap
      | some p0 =>
        have htcpos : 0 < tlCount s p0 := tlCount_pos_of_mem (alookup_mem htl)
        have hrefsp := inv.refs_eq p0
        obtain ⟨pl, hpl⟩ : ∃ pl, s.pools p0 = some pl := by
          cases hp : s.pools p0 with
          | none =>
            simp only [poolRefs, hp] at hrefsp
            omega
          | some pl => exact ⟨pl, rfl⟩
        cases hfl : pl.freeList with
        | nil =>
          rw [step_construct_existing_fresh v htl hpl hfl]
          show fupd s.allocOwner s.nextCell (some p0) c = some p
          rw [fupd_ne _ _ hcc0]
          exact hap
        | cons c0 rest =>
          rw [step_construct_existing_reuse v htl hpl hfl]
          show fupd s.allocOwner c0 (some p0) c = some p
          by_cases hcc : c = c0
          · rw [hcc] at hap ⊢
            rw [fupd_self]
            have h0 := (inv.free_own p0 pl c0 hpl (by rw [hfl]; simp)).1
            rw [hap] at h0
            have : p = p0 := by simpa using h0
            rw [this]
          · rw [fupd_ne _ _ hcc]
            exact hap
  · intro tid hid h hlk p hp
    simp [poolFree, step_destroy_pools_ne s tid hid hlk hp]

/-- Witness for C5 at a reachable state whose creating thread has exited. -/
theorem owner_pool_fixed_and_kept_alive_witness :
    Reachable (run init [Action.construct 0 4, Action.threadExit 0]) ∧
    ((∀ k h, (k, h) ∈ (run init [Action.construct 0 4, Action.threadExit 0]).handles →
        (run init [Action.construct 0 4, Action.threadExit 0]).allocOwner h.counter_ =
          some h.owner_ ∧
        (run init [Action.construct 0 4, Action.threadExit 0]).pools h.owner_ ≠ none) ∧
     (∀ a c p,
        (run init [Action.construct 0 4, Action.threadExit 0]).allocOwner c = some p →
        (step (run init [Action.construct 0 4, Action.threadExit 0]) a).allocOwner c =
          some p) ∧
     (∀ tid tid' hid,
        step (run init [Action.construct 0 4, Action.threadExit 0]) (.destroy tid hid) =
        step (run init [Action.construct 0 4, Action.threadExit 0]) (.destroy tid' hid)) ∧
     (∀ tid hid h,
        alookup (run init [Action.construct 0 4, Action.threadExit 0]).handles hid =
          some h →
        ∀ p, p ≠ h.owner_ →
          poolFree (step (run init [Action.construct 0 4, Action.threadExit 0])
            (.destroy tid hid)) p =
          poolFree (run init [Action.construct 0 4, Action.threadExit 0]) p)) :=
  ⟨⟨[Action.construct 0 4, Action.threadExit 0], rfl⟩,
    owner_pool_fixed_and_kept_alive _ ⟨[Action.construct 0 4, Action.threadExit 0], rfl⟩⟩

/-- C6: for every thread and payload type, the first `getPool` call creates
the pool lazily and caches it in the `thread_local` table; every later call
with the same (thread, type) key returns the very same pool instance without
changing the table; and pools recorded for distinct (thread, type) keys are
distinct instances. -/
theorem getPool_cached_per_thread (pt : PoolTable) (hpt : ReachablePT pt) (tid ty : Nat) :
    (∀ p, alookup pt.table (tid, ty) = some p → getPoolT pt tid ty = (p, pt)) ∧
    (alookup pt.table (tid, ty) = none →
      getPoolT pt tid ty = (pt.next, ⟨((tid, ty), pt.next) :: pt.table, pt.next + 1⟩) ∧
      alookup (getPoolT pt tid ty).2.table (tid, ty) = some (getPoolT pt tid ty).1) ∧
    (getPoolT (getPoolT pt tid ty).2 tid ty = ((getPoolT pt tid ty).1, (getPoolT pt tid ty).2)) ∧
    (∀ k1 k2 p1 p2, k1 ≠ k2 → alookup pt.table k1 = some p1 →
      alookup pt.table k2 = some p2 → p1 ≠ p2) := by
  refine ⟨?_, ?_, ?_, ?_⟩
  · intro p hp
    simp [getPoolT, hp]
  · intro hp
    refine ⟨by simp [getPoolT, hp], ?_⟩
    simp [getPoolT, hp, alookup]
  · cases hp : alookup pt.table (tid, ty) with
    | some p =>
      simp [getPoolT, hp]
    | none =>
      simp only [getPoolT, hp]
      have hself : alookup (((tid, ty), pt.next) :: pt.table) (tid, ty) = some pt.next := by
        simp [alookup]
      simp [hself]
  · intro k1 k2 p1 p2 hk h1 h2 he
    have hinv := invPT_reachable hpt
    rw [he] at h1
    exact hk (hinv.2 k1 k2 p2 (alookup_mem h1) (alookup_mem h2))

/-- Witness for C6 at a concrete table holding pools for two threads. -/
theorem getPool_cached_per_thread_witness :
    ReachablePT (runPT initPT [(0, 0), (1, 0)]) ∧
    ((∀ p, alookup (runPT initPT [(0, 0), (1, 0)]).table (0, 0) = some p →
        getPoolT (runPT initPT [(0, 0), (1, 0)]) 0 0 = (p, runPT initPT [(0, 0), (1, 0)])) ∧
     (alookup (runPT initPT [(0, 0), (1, 0)]).table (0, 0) = none →
        getPoolT (runPT initPT [(0, 0), (1, 0)]) 0 0 =
          ((runPT initPT [(0, 0), (1, 0)]).next,
            ⟨((0, 0), (runPT initPT [(0, 0), (1, 0)]).next) ::
              (runPT initPT [(0, 0), (1, 0)]).table,
              (runPT initPT [(0, 0), (1, 0)]).next + 1⟩) ∧
        alookup (getPoolT (runPT initPT [(0, 0), (1, 0)]) 0 0).2.table (0, 0) =
          some (getPoolT (runPT initPT [(0, 0), (1, 0)]) 0 0).1) ∧
     (getPoolT (getPoolT (runPT initPT [(0, 0), (1, 0)]) 0 0).2 0 0 =
        ((getPoolT (runPT initPT [(0, 0), (1, 0)]) 0 0).1,
          (getPoolT (runPT initPT [(0, 0), (1, 0)]) 0 0).2)) ∧
     (∀ k1 k2 p1 p2, k1 ≠ k2 →
        alookup (runPT initPT [(0, 0), (1, 0)]).table k1 = some p1 →
        alookup (runPT initPT [(0, 0), (1, 0)]).table k2 = some p2 → p1 ≠ p2)) :=
  ⟨⟨[(0, 0), (1, 0)], rfl⟩,
    getPool_cached_per_thread _ ⟨[(0, 0), (1, 0)], rfl⟩ 0 0⟩

/-- C9: among any set of destructions of the handles sharing one cell —
executed in any order (any interleaving of the destroying threads, each
destructor's `!--counter_->uses` being one indivisible decrement-and-test
step) — exactly one destruction observes the transition of the use count to
zero and releases the cell: over every reachable state and every enumeration
of the cell's referencing handles, the number of releasing steps in the trace
is exactly one. -/
theorem exactly_one_release_per_cell (s : State) (hs : Reachable s) (c : Nat)
    (l : List (Nat × Nat))
    (hperm : (l.map Prod.snd).Perm (refIds s c))
    (hne : l ≠ []) :
    releaseCount s (l.map (fun q => Action.destroy q.1 q.2)) c = 1 := by
  have inv := inv_reachable hs
  exact destroy_all_single_release l s hs c
    (hperm.nodup_iff.mpr (refIds_nodup inv c))
    (fun x => hperm.mem_iff) hne

/-- Witness for C9: two handles share one cell and are destroyed by two
different threads; exactly one release happens. -/
theorem exactly_one_release_per_cell_witness :
    Reachable (run init [Action.construct 0 1, Action.copy 0]) ∧
    ([(0, 1), (5, 0)].map Prod.snd).Perm
      (refIds (run init [Action.construct 0 1, Action.copy 0]) 0) ∧
    [(0, 1), (5, 0)] ≠ ([] : List (Nat × Nat)) ∧
    releaseCount (run init [Action.construct 0 1, Action.copy 0])
      ([(0, 1), (5, 0)].map (fun q => Action.destroy q.1 q.2)) 0 = 1 :=
  ⟨⟨[Action.construct 0 1, Action.copy 0], rfl⟩, by decide, by decide,
    exactly_one_release_per_cell _ ⟨[Action.construct 0 1, Action.copy 0], rfl⟩ 0
      [(0, 1), (5, 0)] (by decide) (by decide)⟩

end ConstObject
